import Mathlib

/-
Verification development for the react-judgments-deploy client
(src/unnamed/part_003, the main page component).  The definitions below are a
shallow embedding of the pure computational core of that file: input
sanitisation, JSON-payload normalisation, pagination arithmetic, the doc
preview fetch, the newline-delimited JSON stream reader of askStreaming, the
askStreaming/askSync fallback structure, the AbortController discipline, the
result-expansion logic and the QA log of the chat panel.  JS strings are
modelled as List Char, JS numbers as an inductive wrapping exact rationals
together with NaN and the two infinities, and JS values as an inductive JsVal.
-/

-- ===========================================================================
-- JS whitespace, trim, and sanitizeText (part_003 lines 204-210)
-- ===========================================================================

/-- The ECMAScript whitespace class used by the regex class backslash-s, by
String.prototype.trim and by StringToNumber: space, tab, LF, VT, FF, CR,
NBSP, U+1680, U+2000..U+200A, U+2028, U+2029, U+202F, U+205F, U+3000 and the
BOM U+FEFF. -/
def jsWs (c : Char) : Bool :=
  c.toNat = 0x20 || c.toNat = 0x09 || c.toNat = 0x0a || c.toNat = 0x0b ||
  c.toNat = 0x0c || c.toNat = 0x0d || c.toNat = 0xa0 || c.toNat = 0x1680 ||
  (0x2000 ≤ c.toNat && c.toNat ≤ 0x200a) || c.toNat = 0x2028 ||
  c.toNat = 0x2029 || c.toNat = 0x202f || c.toNat = 0x205f ||
  c.toNat = 0x3000 || c.toNat = 0xfeff

/-- Drop trailing whitespace (the trimEnd half of String.prototype.trim),
written by structural recursion so that proofs stay simple. -/
def dropTrailingWs : List Char → List Char
  | [] => []
  | c :: cs =>
    let r := dropTrailingWs cs
    if r.isEmpty && jsWs c then [] else c :: r

/-- String.prototype.trim: remove leading and trailing JS whitespace. -/
def trimWs (l : List Char) : List Char :=
  dropTrailingWs (l.dropWhile jsWs)

/-- MAX_SEARCH_LEN (line 205). -/
def MAX_SEARCH_LEN : Nat := 160

/-- MAX_CHAT_LEN (line 206). -/
def MAX_CHAT_LEN : Nat := 800

/-- Helper for the regex replace of a whitespace-run by a single space:
`inRun` records whether the previous character was part of a whitespace run
whose replacement space has already been emitted. -/
def collapseWsAux : Bool → List Char → List Char
  | _, [] => []
  | inRun, c :: cs =>
    if jsWs c then
      if inRun then collapseWsAux true cs else ' ' :: collapseWsAux true cs
    else c :: collapseWsAux false cs

/-- The global regex replace of every whitespace run by a single space, i.e.
`s.replace(/\s+/g, " ")` (line 209). -/
def collapseWs (l : List Char) : List Char := collapseWsAux false l

/-- sanitizeText (lines 208-210):
`s.replace(/\s+/g, " ").slice(0, max).trim()`. -/
def sanitizeText (s : List Char) (maxLen : Nat) : List Char :=
  trimWs ((collapseWs s).take maxLen)

/-- Every whitespace character of the list is a plain space. -/
def wsOnlySpace (l : List Char) : Bool := l.all (fun c => !jsWs c || c = ' ')

/-- No two adjacent characters are both whitespace (whitespace runs all have
length one). -/
def noWsPair : List Char → Bool
  | [] => true
  | [_] => true
  | c1 :: c2 :: rest => !(jsWs c1 && jsWs c2) && noWsPair (c2 :: rest)

/-- Neither the first nor the last character is whitespace. -/
def noEdgeWs (l : List Char) : Bool :=
  (match l.head? with | some c => !jsWs c | none => true) &&
  (match l.getLast? with | some c => !jsWs c | none => true)

-- ===========================================================================
-- JS numbers: exact rationals plus NaN and the two infinities
-- ===========================================================================

/-- A JS number, modelled as an exact rational together with NaN and the two
infinities.  Float rounding is not modelled: every arithmetic operation used
by the embedded code (max, floor, ceil, sum, difference, quotient) is exact on
the values the claims are about, and the spec-side formulas are interpreted
with the same operations, so rounding never separates code from spec. -/
inductive JsNum : Type
  | nan : JsNum
  | inf : Bool → JsNum
  | fin : ℚ → JsNum
deriving DecidableEq, Repr

/-- JS strict less-than: false whenever an operand is NaN. -/
def jsLtB : JsNum → JsNum → Bool
  | .nan, _ => false
  | _, .nan => false
  | .inf a, .inf b => !a && b
  | .inf a, .fin _ => !a
  | .fin _, .inf b => b
  | .fin a, .fin b => decide (a < b)

/-- JS less-or-equal: false whenever an operand is NaN. -/
def jsLeB : JsNum → JsNum → Bool
  | .nan, _ => false
  | _, .nan => false
  | .inf a, .inf b => a = b || (!a && b)
  | .inf a, .fin _ => !a
  | .fin _, .inf b => b
  | .fin a, .fin b => decide (a ≤ b)

/-- Math.max on two arguments: NaN if either argument is NaN. -/
def jsMax (a b : JsNum) : JsNum :=
  match a, b with
  | .nan, _ => .nan
  | _, .nan => .nan
  | x, y => if jsLtB x y then y else x

/-- JS negation. -/
def jsNeg : JsNum → JsNum
  | .nan => .nan
  | .inf p => .inf (!p)
  | .fin q => .fin (-q)

/-- JS addition. -/
def jsAdd : JsNum → JsNum → JsNum
  | .nan, _ => .nan
  | _, .nan => .nan
  | .inf a, .inf b => if a = b then .inf a else .nan
  | .inf a, .fin _ => .inf a
  | .fin _, .inf b => .inf b
  | .fin a, .fin b => .fin (a + b)

/-- JS subtraction. -/
def jsSub (a b : JsNum) : JsNum := jsAdd a (jsNeg b)

/-- JS multiplication. -/
def jsMul : JsNum → JsNum → JsNum
  | .nan, _ => .nan
  | _, .nan => .nan
  | .inf a, .inf b => .inf (a = b)
  | .inf a, .fin q => if q = 0 then .nan else .inf (a = decide (0 < q))
  | .fin q, .inf b => if q = 0 then .nan else .inf (b = decide (0 < q))
  | .fin a, .fin b => .fin (a * b)

/-- JS division (the divisor 0 is treated as +0, which is the only zero the
model has). -/
def jsDiv : JsNum → JsNum → JsNum
  | .nan, _ => .nan
  | _, .nan => .nan
  | .inf _, .inf _ => .nan
  | .inf a, .fin q => if q < 0 then .inf (!a) else .inf a
  | .fin _, .inf _ => .fin 0
  | .fin a, .fin b =>
    if b = 0 then (if a = 0 then .nan else .inf (decide (0 < a)))
    else .fin (a / b)

/-- Math.floor. -/
def jsFloor : JsNum → JsNum
  | .nan => .nan
  | .inf p => .inf p
  | .fin q => .fin (⌊q⌋ : ℤ)

/-- Math.ceil. -/
def jsCeil : JsNum → JsNum
  | .nan => .nan
  | .inf p => .inf p
  | .fin q => .fin (⌈q⌉ : ℤ)

/-- Number.isFinite. -/
def jsIsFiniteB : JsNum → Bool
  | .fin _ => true
  | _ => false

/-- Truthiness of a JS number: false for NaN and 0, true otherwise. -/
def jsTruthyNum : JsNum → Bool
  | .nan => false
  | .inf _ => true
  | .fin q => decide (q ≠ 0)

-- ===========================================================================
-- JS values
-- ===========================================================================

/-- A JS value as the embedded code can observe it: undefined, null, boolean,
number, string, array or plain object (an ordered field list; later duplicate
keys shadow earlier ones, as in a JS object literal / JSON.parse). -/
inductive JsVal : Type
  | undefined : JsVal
  | null : JsVal
  | bool : Bool → JsVal
  | num : JsNum → JsVal
  | str : List Char → JsVal
  | arr : List JsVal → JsVal
  | obj : List (String × JsVal) → JsVal

/-- Field lookup in an object field list, last occurrence winning, undefined
when absent. -/
def getFieldList (fs : List (String × JsVal)) (k : String) : JsVal :=
  fs.foldl (fun acc p => if p.1 = k then p.2 else acc) .undefined

/-- Property read `v[k]` for the string keys the embedded code uses: a plain
object yields the field (or undefined), every other non-null value yields
undefined.  Reads on null/undefined throw in JS and are handled separately at
the call sites that guard them. -/
def getField : JsVal → String → JsVal
  | .obj fs, k => getFieldList fs k
  | _, _ => .undefined

/-- The `in` operator: key presence on an object. -/
def hasField : JsVal → String → Bool
  | .obj fs, k => fs.any (fun p => p.1 = k)
  | _, _ => false

/-- `v == null`, i.e. v is null or undefined. -/
def nullishV : JsVal → Bool
  | .null => true
  | .undefined => true
  | _ => false

/-- The nullish-coalescing operator `v ?? d`. -/
def coalesce (v d : JsVal) : JsVal := if nullishV v then d else v

/-- `x || d` on numbers (used as `Number(...) || 10`): keeps x unless it is
falsy (NaN or 0). -/
def numOr (x d : JsNum) : JsNum := if jsTruthyNum x then x else d

/-- isObject (lines 270-272): `typeof value === "object" && value !== null`.
Arrays have typeof "object" in JS and therefore satisfy it. -/
def isObject : JsVal → Bool
  | .arr _ => true
  | .obj _ => true
  | _ => false

/-- Array.isArray. -/
def isArrayV : JsVal → Bool
  | .arr _ => true
  | _ => false

/-- JS truthiness of a value. -/
def truthy : JsVal → Bool
  | .undefined => false
  | .null => false
  | .bool b => b
  | .num n => jsTruthyNum n
  | .str s => !s.isEmpty
  | .arr _ => true
  | .obj _ => true

/-- Decimal digit test. -/
def isDigitCh (c : Char) : Bool := 48 ≤ c.toNat && c.toNat ≤ 57

/-- Decimal digit value. -/
def digitVal (c : Char) : Nat := c.toNat - 48

/-- Value of a big-endian digit list. -/
def natOfDigits (ds : List Char) : Nat :=
  ds.foldl (fun a c => a * 10 + digitVal c) 0

/-- Split a list into its maximal leading run of digits and the rest. -/
def takeDigits (l : List Char) : List Char × List Char :=
  (l.takeWhile isDigitCh, l.dropWhile isDigitCh)

/-- Optional exponent part `e|E [+|-] digits` which must consume the whole
remainder; scales the mantissa accordingly. -/
def parseExpTail (mant : ℚ) (r : List Char) : Option ℚ :=
  match r with
  | [] => some mant
  | c :: r2 =>
    if c = 'e' || c = 'E' then
      let signed : Bool × List Char :=
        match r2 with
        | '+' :: t => (false, t)
        | '-' :: t => (true, t)
        | _ => (false, r2)
      let ds := takeDigits signed.2
      if ds.1.isEmpty || !ds.2.isEmpty then none
      else if signed.1 then some (mant / (10 : ℚ) ^ natOfDigits ds.1)
      else some (mant * (10 : ℚ) ^ natOfDigits ds.1)
    else none

/-- Unsigned decimal literal `digits [. digits] [exp]` or `. digits [exp]`,
consuming the whole list. -/
def jsDecodeNumLiteral (l : List Char) : Option ℚ :=
  let ip := takeDigits l
  match ip.2 with
  | '.' :: r2 =>
    let fp := takeDigits r2
    if ip.1.isEmpty && fp.1.isEmpty then none
    else
      parseExpTail
        ((natOfDigits ip.1 : ℚ) + (natOfDigits fp.1 : ℚ) / (10 : ℚ) ^ fp.1.length)
        fp.2
  | _ =>
    if ip.1.isEmpty then none
    else parseExpTail (natOfDigits ip.1 : ℚ) ip.2

/-- Modelled fragment of the ECMAScript StringToNumber coercion: trim JS
whitespace, empty means 0, optional sign, then either the literal Infinity or
a decimal literal with optional fraction and exponent; anything else is NaN.
Hex, octal and binary literal forms are not modelled (they come out NaN); no
claim in this development depends on them since code side and spec side use
the same coercion. -/
def jsStringToNumber (s : List Char) : JsNum :=
  let t := trimWs s
  if t.isEmpty then .fin 0
  else
    let signed : Bool × List Char :=
      match t with
      | '+' :: r => (false, r)
      | '-' :: r => (true, r)
      | _ => (false, t)
    if signed.2 = "Infinity".toList then .inf (!signed.1)
    else
      match jsDecodeNumLiteral signed.2 with
      | some q => .fin (if signed.1 then -q else q)
      | none => .nan

/-- The Number() coercion.  Arrays and objects coerce through toString in JS;
that detour is modelled only for the empty array (0), other arrays and all
objects are modelled as NaN.  Every theorem below uses this same coercion on
both the code side and the spec side, so the simplification cannot separate
them. -/
def jsToNumber : JsVal → JsNum
  | .undefined => .nan
  | .null => .fin 0
  | .bool b => .fin (if b then 1 else 0)
  | .num n => n
  | .str s => jsStringToNumber s
  | .arr [] => .fin 0
  | .arr _ => .nan
  | .obj _ => .nan

/-- Digits of a natural number (auxiliary for jsToString). -/
def natDigits (n : Nat) : List Char := (Nat.toDigits 10 n)

/-- Partial model of the String() coercion: exact on strings, booleans,
null, undefined, NaN, the infinities and integers; non-integer rationals,
arrays and objects are rendered with fixed placeholders (no claim depends on
those renderings). -/
def jsToString : JsVal → List Char
  | .str s => s
  | .bool true => "true".toList
  | .bool false => "false".toList
  | .null => "null".toList
  | .undefined => "undefined".toList
  | .num .nan => "NaN".toList
  | .num (.inf true) => "Infinity".toList
  | .num (.inf false) => "-Infinity".toList
  | .num (.fin q) =>
    if q.den = 1 then
      (if q.num < 0 then '-' :: natDigits q.num.natAbs else natDigits q.num.natAbs)
    else "number".toList
  | .arr _ => "array".toList
  | .obj _ => "object".toList

-- ===========================================================================
-- normalizeSearchPayload (part_003 lines 274-350)
-- ===========================================================================

/-- The record returned by normalizeSearchPayload. -/
structure NormalizedSearch where
  hits : List JsVal
  limit : JsNum
  offset : JsNum
  nextOffset : Option JsNum
  prevOffset : Option JsNum
  totalCount : Option JsNum
  page : JsNum
  totalPages : Option JsNum

/-- normalizeSearchPayload, translated clause by clause from lines 274-350.
Note that real JS arrays satisfy the `isObject` test (typeof "object"), so
they take the first branch and the dedicated `Array.isArray(data)` branch of
the source is unreachable for them; it is kept anyway, mirroring the source. -/
def normalizeSearchPayload (data : JsVal) : NormalizedSearch :=
  if isObject data then
    let hits : List JsVal := match getField data "hits" with | .arr xs => xs | _ => []
    let limit := jsMax (.fin 1)
      (numOr (jsToNumber (coalesce (getField data "limit") (.num (.fin 10)))) (.fin 10))
    let offset := jsMax (.fin 0)
      (numOr (jsToNumber (coalesce (getField data "offset") (.num (.fin 0)))) (.fin 0))
    let nextOffset : Option JsNum :=
      if nullishV (getField data "next_offset") then none
      else some (jsToNumber (getField data "next_offset"))
    let prevOffset : Option JsNum :=
      if nullishV (getField data "prev_offset") then none
      else some (jsToNumber (getField data "prev_offset"))
    let totalCount : Option JsNum :=
      match getField data "total_count" with | .num n => some n | _ => none
    let pageFromApi := jsToNumber (getField data "page")
    let totalPagesFromApi := jsToNumber (getField data "total_pages")
    let computedPage := jsAdd (jsFloor (jsDiv offset (jsMax (.fin 1) limit))) (.fin 1)
    let page :=
      if jsIsFiniteB pageFromApi && jsLtB (.fin 0) pageFromApi then pageFromApi
      else computedPage
    let totalPages : Option JsNum :=
      if jsIsFiniteB totalPagesFromApi && jsLtB (.fin 0) totalPagesFromApi then
        some totalPagesFromApi
      else
        match totalCount with
        | some tc => some (jsMax (.fin 1) (jsCeil (jsDiv tc (jsMax (.fin 1) limit))))
        | none => none
    ⟨hits, limit, offset, nextOffset, prevOffset, totalCount, page, totalPages⟩
  else if isArrayV data then
    ⟨(match data with | .arr xs => xs | _ => []),
      .fin 10, .fin 0, none, none, none, .fin 1, none⟩
  else
    ⟨[], .fin 10, .fin 0, none, none, none, .fin 1, none⟩

/-- Spec-side page formula, written from the words of claim C4: the server
page (its Number coercion) when that is a finite number greater than 0,
otherwise floor(offset / max(1, limit)) + 1 over the normalized offset and
limit. -/
def specPageC4 (data : JsVal) : JsNum :=
  let n := normalizeSearchPayload data
  let serverPage := jsToNumber (getField data "page")
  if jsIsFiniteB serverPage && jsLtB (.fin 0) serverPage then serverPage
  else jsAdd (jsFloor (jsDiv n.offset (jsMax (.fin 1) n.limit))) (.fin 1)

/-- Spec-side totalPages formula, written from the words of claim C4: the
server total_pages when that is a finite number greater than 0, otherwise
max(1, ceil(total_count / max(1, limit))) when total_count is a number, and
otherwise null. -/
def specTotalPagesC4 (data : JsVal) : Option JsNum :=
  let n := normalizeSearchPayload data
  let serverTp := jsToNumber (getField data "total_pages")
  if jsIsFiniteB serverTp && jsLtB (.fin 0) serverTp then some serverTp
  else
    match getField data "total_count" with
    | .num tc => some (jsMax (.fin 1) (jsCeil (jsDiv tc (jsMax (.fin 1) n.limit))))
    | _ => none

-- ===========================================================================
-- Pagination helpers computePrevOffset / computeNextOffset (lines 688-696)
-- ===========================================================================

/-- The slice of component state the pagination helpers read.  The fields are
full JS numbers: normalizeSearchPayload can store +Infinity (and NaN in
`nextOffset`/`prevOffset`) into this state — e.g. a payload whose offset and
limit fields are 1e999 or the string "Infinity" — since Math.max does not
eliminate infinities, so the model must not narrow them to finite
rationals. -/
structure PageState where
  prevOffset : Option JsNum
  nextOffset : Option JsNum
  offset : JsNum
  limit : JsNum
  resultsLen : ℕ

/-- computePrevOffset (lines 688-691):
`if (prevOffset !== null && prevOffset >= 0) return prevOffset;
 return Math.max(0, offset - Math.max(1, limit))`. -/
def computePrevOffset (s : PageState) : JsNum :=
  match s.prevOffset with
  | some p =>
    if jsLeB (.fin 0) p then p
    else jsMax (.fin 0) (jsSub s.offset (jsMax (.fin 1) s.limit))
  | none => jsMax (.fin 0) (jsSub s.offset (jsMax (.fin 1) s.limit))

/-- computeNextOffset (lines 692-696):
`if (nextOffset !== null) return nextOffset;
 if (results.length < Math.max(1, limit)) return null;
 return offset + Math.max(1, limit)`. -/
def computeNextOffset (s : PageState) : Option JsNum :=
  match s.nextOffset with
  | some n => some n
  | none =>
    if jsLtB (.fin (s.resultsLen : ℚ)) (jsMax (.fin 1) s.limit) then none
    else some (jsAdd s.offset (jsMax (.fin 1) s.limit))

-- ===========================================================================
-- fetchDocPreview (lines 352-361)
-- ===========================================================================

/-- Everything the environment decides for one fetchDocPreview call: the
fetch promise may reject (network error or abort), or deliver a response with
an ok flag and a body which either fails to parse as JSON (r.json() rejects,
body = none) or parses to a JS value. -/
inductive FetchOutcome : Type
  | failure : FetchOutcome
  | response : Bool → Option JsVal → FetchOutcome

/-- fetchDocPreview (lines 352-361): non-ok responses, parse failures and
rejections all give null; an ok response whose parsed body passes isObject is
returned as the metadata. -/
def fetchDocPreview : FetchOutcome → Option JsVal
  | .failure => none
  | .response ok body =>
    if !ok then none
    else
      match body with
      | none => none
      | some j => if isObject j then some j else none

/-- A JSON object in the strict sense of the JSON grammar: a brace-delimited
map, which excludes arrays. -/
def isJsonObject : JsVal → Bool
  | .obj _ => true
  | _ => false

/-- Spec-side description of fetchDocPreview as amended: the parsed body is
returned exactly when the response is ok and the body parses to a non-null
value of JS object type (the code's isObject test, which arrays also pass);
null in every other case. -/
def fetchDocPreviewSpec : FetchOutcome → Option JsVal
  | .response true (some j) => if isObject j then some j else none
  | _ => none

-- ===========================================================================
-- JSON.parse (used by the streaming reader, line 1132)
-- ===========================================================================

/-- JSON insignificant whitespace (the JSON grammar, not the regex class):
space, tab, LF, CR. -/
def jsonWsB (c : Char) : Bool := c = ' ' || c = '\t' || c = '\n' || c = '\x0d'

/-- Skip JSON whitespace. -/
def skipJWs (l : List Char) : List Char := l.dropWhile jsonWsB

/-- Hexadecimal digit value. -/
def hexDigitVal (c : Char) : Option Nat :=
  if 48 ≤ c.toNat && c.toNat ≤ 57 then some (c.toNat - 48)
  else if 97 ≤ c.toNat && c.toNat ≤ 102 then some (c.toNat - 87)
  else if 65 ≤ c.toNat && c.toNat ≤ 70 then some (c.toNat - 55)
  else none

/-- JSON string body after the opening quote: ordinary characters, the
escape sequences of the JSON grammar, and a closing quote.  Characters below
U+0020 are rejected as in the grammar.  A \u escape denoting a surrogate is
mapped through Char.ofNat (which sends invalid scalar values to U+0000);
no claim depends on surrogate handling. -/
def parseJStringAux : List Char → List Char → Option (List Char × List Char)
  | _, [] => none
  | acc, '"' :: rest => some (acc.reverse, rest)
  | acc, '\\' :: 'n' :: r => parseJStringAux ('\n' :: acc) r
  | acc, '\\' :: 't' :: r => parseJStringAux ('\t' :: acc) r
  | acc, '\\' :: 'r' :: r => parseJStringAux ('\x0d' :: acc) r
  | acc, '\\' :: 'b' :: r => parseJStringAux ('\x08' :: acc) r
  | acc, '\\' :: 'f' :: r => parseJStringAux ('\x0c' :: acc) r
  | acc, '\\' :: '/' :: r => parseJStringAux ('/' :: acc) r
  | acc, '\\' :: '\\' :: r => parseJStringAux ('\\' :: acc) r
  | acc, '\\' :: '"' :: r => parseJStringAux ('"' :: acc) r
  | acc, '\\' :: 'u' :: h1 :: h2 :: h3 :: h4 :: r =>
    (match hexDigitVal h1, hexDigitVal h2, hexDigitVal h3, hexDigitVal h4 with
      | some a, some b, some c, some d =>
        parseJStringAux (Char.ofNat (((a * 16 + b) * 16 + c) * 16 + d) :: acc) r
      | _, _, _, _ => none)
  | _, '\\' :: _ => none
  | acc, c :: rest => if c.toNat < 0x20 then none else parseJStringAux (c :: acc) rest

/-- Exponent part of a JSON number after the e/E marker. -/
def parseJExpPart (m : ℚ) (r : List Char) : Option (ℚ × List Char) :=
  let signd : Bool × List Char :=
    match r with
    | '+' :: t => (false, t)
    | '-' :: t => (true, t)
    | _ => (false, r)
  let ds := takeDigits signd.2
  if ds.1.isEmpty then none
  else if signd.1 then some (m / (10 : ℚ) ^ natOfDigits ds.1, ds.2)
  else some (m * (10 : ℚ) ^ natOfDigits ds.1, ds.2)

/-- A JSON number: -? (0 | [1-9] digits) (. digits)? ([eE] sign? digits)?.
Leading zeros and a leading dot are rejected as in the grammar. -/
def parseJNumber (l : List Char) : Option (ℚ × List Char) :=
  let signd : Bool × List Char :=
    match l with
    | '-' :: t => (true, t)
    | _ => (false, l)
  let ip := takeDigits signd.2
  if ip.1.isEmpty then none
  else if 1 < ip.1.length && ip.1.head? = some '0' then none
  else
    let withFrac : Option (ℚ × List Char) :=
      match ip.2 with
      | '.' :: r2 =>
        let fp := takeDigits r2
        if fp.1.isEmpty then none
        else some ((natOfDigits ip.1 : ℚ) + (natOfDigits fp.1 : ℚ) / (10 : ℚ) ^ fp.1.length, fp.2)
      | _ => some ((natOfDigits ip.1 : ℚ), ip.2)
    match withFrac with
    | none => none
    | some (m, r3) =>
      let withExp : Option (ℚ × List Char) :=
        match r3 with
        | 'e' :: r4 => parseJExpPart m r4
        | 'E' :: r4 => parseJExpPart m r4
        | _ => some (m, r3)
      match withExp with
      | none => none
      | some (v, r5) => some ((if signd.1 then -v else v), r5)

mutual

/-- A JSON value, fuel-indexed recursive descent. -/
def parseJValue : Nat → List Char → Option (JsVal × List Char)
  | 0, _ => none
  | Nat.succ fuel, cs =>
    match skipJWs cs with
    | 't' :: 'r' :: 'u' :: 'e' :: r => some (.bool true, r)
    | 'f' :: 'a' :: 'l' :: 's' :: 'e' :: r => some (.bool false, r)
    | 'n' :: 'u' :: 'l' :: 'l' :: r => some (.null, r)
    | '"' :: r =>
      (match parseJStringAux [] r with
        | some (s, r2) => some (.str s, r2)
        | none => none)
    | '[' :: r =>
      (match skipJWs r with
        | ']' :: r2 => some (.arr [], r2)
        | _ => parseJArrayItems fuel r [])
    | '\x7b' :: r =>
      (match skipJWs r with
        | '\x7d' :: r2 => some (.obj [], r2)
        | _ => parseJObjMembers fuel r [])
    | rest =>
      (match parseJNumber rest with
        | some (q, r2) => some (.num (.fin q), r2)
        | none => none)

/-- Comma-separated array items up to the closing bracket. -/
def parseJArrayItems : Nat → List Char → List JsVal → Option (JsVal × List Char)
  | 0, _, _ => none
  | Nat.succ fuel, cs, acc =>
    match parseJValue fuel cs with
    | none => none
    | some (v, r) =>
      match skipJWs r with
      | ',' :: r2 => parseJArrayItems fuel r2 (v :: acc)
      | ']' :: r2 => some (.arr (v :: acc).reverse, r2)
      | _ => none

/-- Comma-separated object members up to the closing brace. -/
def parseJObjMembers : Nat → List Char → List (String × JsVal) → Option (JsVal × List Char)
  | 0, _, _ => none
  | Nat.succ fuel, cs, acc =>
    match skipJWs cs with
    | '"' :: r =>
      (match parseJStringAux [] r with
        | none => none
        | some (k, r2) =>
          match skipJWs r2 with
          | ':' :: r3 =>
            (match parseJValue fuel r3 with
              | none => none
              | some (v, r4) =>
                match skipJWs r4 with
                | ',' :: r5 => parseJObjMembers fuel r5 ((String.mk k, v) :: acc)
                | '\x7d' :: r5 => some (.obj ((String.mk k, v) :: acc).reverse, r5)
                | _ => none)
          | _ => none)
    | _ => none

end

/-- JSON.parse: parse one value and require only whitespace after it. -/
def jsonParse (l : List Char) : Option JsVal :=
  match parseJValue (2 * l.length + 4) l with
  | some (v, r) => if (skipJWs r).isEmpty then some v else none
  | none => none

-- ===========================================================================
-- The streaming reader of askStreaming (part_003 lines 1113-1153)
-- ===========================================================================

/-- JS String.prototype.split("\n") on char lists: n newlines give n+1
segments (the result is never empty). -/
def splitOnNl : List Char → List (List Char)
  | [] => [[]]
  | c :: cs =>
    if c = '\n' then [] :: splitOnNl cs
    else
      match splitOnNl cs with
      | h :: t => (c :: h) :: t
      | [] => [[c]]

/-- The trailing segment after the last newline (`lines.pop() || ""`). -/
def lastSeg (l : List Char) : List Char := (splitOnNl l).getLastD []

/-- The newline-terminated lines: all segments except the trailing one. -/
def completeLines (l : List Char) : List (List Char) := (splitOnNl l).dropLast

/-- The reader-loop state of askStreaming: accumulatedAnswer, the partial-line
buffer, isDone and currentRunId, plus a ghost trace recording each line
handed to JSON.parse, in order. -/
structure StreamState where
  acc : List Char
  trace : List (List Char)
  isDone : Bool
  buffer : List Char
  runId : Option JsVal

/-- The body of the per-line try block (lines 1132-1148) on a parsed value v.
`if (json.error) throw` is caught by the catch of the same try (line 1149),
so a truthy error field only skips the line.  Then run_id is latched, a
non-empty string delta is appended, and done === true sets isDone. -/
def lineEffect (st : StreamState) (v : JsVal) : StreamState :=
  if truthy (getField v "error") then st
  else
    let st1 :=
      if truthy (getField v "run_id") && st.runId.isNone then
        { st with runId := some (getField v "run_id") }
      else st
    let st2 :=
      match getField v "delta" with
      | .str s => if s.isEmpty then st1 else { st1 with acc := st1.acc ++ s }
      | _ => st1
    match getField v "done" with
    | .bool true => { st2 with isDone := true }
    | _ => st2

/-- One iteration of the for-loop (lines 1128-1152): blank lines are skipped
before parsing; a parse failure, a parsed null (whose property read throws a
TypeError into the same catch) and a truthy error field all leave the state
unchanged.  Every non-blank line reaching JSON.parse is recorded in the
trace. -/
def procLine (st : StreamState) (line : List Char) : StreamState :=
  if (trimWs line).isEmpty then st
  else
    let st0 := { st with trace := st.trace ++ [line] }
    match jsonParse line with
    | none => st0
    | some .null => st0
    | some v => lineEffect st0 v

/-- The for-loop over the complete lines of one chunk: stops (break) right
after the line that set isDone. -/
def procLines (st : StreamState) : List (List Char) → StreamState
  | [] => st
  | l :: ls =>
    let st1 := procLine st l
    if st1.isDone then st1 else procLines st1 ls

/-- One iteration of the while loop for one delivered chunk (lines
1120-1153): nothing happens when isDone is already set (the loop has exited);
otherwise the chunk is appended to the buffer, the buffer is split on
newlines, the trailing partial segment is popped back into the buffer, and
the for-loop runs over the complete lines.  The for-loop neither reads nor
writes the buffer, so setting the buffer first is exactly the source
order. -/
def stepChunk (st : StreamState) (c : List Char) : StreamState :=
  if st.isDone then st
  else
    let whole := st.buffer ++ c
    procLines { st with buffer := lastSeg whole } (completeLines whole)

/-- Loop entry state (lines 1115-1118). -/
def initStream : StreamState := ⟨[], [], false, [], none⟩

/-- The whole reader loop over a delivered sequence of chunks. -/
def runStream (chunks : List (List Char)) : StreamState :=
  chunks.foldl stepChunk initStream

/-- The delta string field of a value ([] when absent or not a string). -/
def deltaOf (v : JsVal) : List Char :=
  match getField v "delta" with
  | .str s => s
  | _ => []

/-- Claim C1 as stated: the delta contributed by one newline-terminated line,
read off the parsed JSON line with no regard to done truncation. -/
def lineDeltaClaim (l : List Char) : List Char :=
  match jsonParse l with
  | some v => deltaOf v
  | none => []

/-- Claim C1 as stated: concatenation, in order, of the delta string fields
of all the newline-terminated JSON lines of the stream text. -/
def claimedDeltas (t : List Char) : List Char :=
  ((completeLines t).map lineDeltaClaim).flatten

/-- A line whose parsed value actually reaches the effect stage: non-blank,
parses, is not null, and has no truthy error field. -/
def goodLineVal (l : List Char) : Option JsVal :=
  if (trimWs l).isEmpty then none
  else
    match jsonParse l with
    | none => none
    | some .null => none
    | some v => if truthy (getField v "error") then none else some v

/-- A line that sets isDone: a good line whose done field is true. -/
def lineIsDone (l : List Char) : Bool :=
  match goodLineVal l with
  | some v => (match getField v "done" with | .bool true => true | _ => false)
  | none => false

/-- The delta a line actually contributes to the accumulated answer. -/
def lineDeltaEff (l : List Char) : List Char :=
  match goodLineVal l with
  | some v => deltaOf v
  | none => []

/-- Prefix of a list up to and including the first element satisfying p. -/
def takeThroughFirst {α : Type} (p : α → Bool) : List α → List α
  | [] => []
  | x :: xs => if p x then [x] else x :: takeThroughFirst p xs

/-- The complete lines the loop actually processes: everything up to and
including the first done line. -/
def specLines (t : List Char) : List (List Char) :=
  takeThroughFirst lineIsDone (completeLines t)

/-- Amended spec accumulation: deltas of the processed lines only. -/
def specAcc (t : List Char) : List Char :=
  ((specLines t).map lineDeltaEff).flatten

/-- Amended spec trace: the non-blank processed lines, each parsed once, in
order. -/
def specTrace (t : List Char) : List (List Char) :=
  (specLines t).filter (fun l => !(trimWs l).isEmpty)

/-- Whether some complete line of the stream text signals done. -/
def specDone (t : List Char) : Bool := (completeLines t).any lineIsDone

-- ===========================================================================
-- cleanLLMAnswer (part_003 lines 1046-1050) and the ask fallback structure
-- ===========================================================================

/-- Case folding for the /i regex flag. -/
def toLowerL (l : List Char) : List Char := l.map Char.toLower

/-- Maximal prefix made of JS whitespace with at most one interspersed colon
(the language matched by backslash-s* colon? backslash-s* before the final
newline run). -/
def takeWsColon : Bool → List Char → List Char
  | _, [] => []
  | colonSeen, c :: cs =>
    if jsWs c then c :: takeWsColon colonSeen cs
    else if c = ':' && !colonSeen then c :: takeWsColon true cs
    else []

/-- Index of the last newline of a list, if any. -/
def lastNlPos : List Char → Option Nat
  | [] => none
  | c :: cs =>
    match lastNlPos cs with
    | some i => some (i + 1)
    | none => if c = '\n' then some 0 else none

/-- After a matched keyword, the regex tail backslash-s* colon? backslash-s*
newline+ matches (greedily, with backtracking) exactly up to the last newline
of the maximal whitespace-and-at-most-one-colon prefix; none when that prefix
has no newline. -/
def tryKeywordTail (r : List Char) : Option (List Char) :=
  match lastNlPos (takeWsColon false r) with
  | some i => some (r.drop (i + 1))
  | none => none

/-- The alternation (answer|final answer|response|reply|jibu) in source
order. -/
def kwCandidates : List (List Char) :=
  ["answer".toList, "final answer".toList, "response".toList, "reply".toList,
    "jibu".toList]

/-- Try the keyword alternatives in order; on a keyword whose tail fails to
match, the regex engine moves to the next alternative. -/
def tryKeywords : List (List Char) → List Char → Option (List Char)
  | [], _ => none
  | kw :: rest, r =>
    if toLowerL (r.take kw.length) = kw then
      match tryKeywordTail (r.drop kw.length) with
      | some out => some out
      | none => tryKeywords rest r
    else tryKeywords rest r

/-- cleanLLMAnswer (lines 1046-1050): strip one leading header of the form
whitespace*, up to six hashes with trailing whitespace, one of the keywords,
optional colon amid whitespace, and at least one newline — then trim.  When
the header regex does not match, the original string is trimmed. -/
def cleanLLMAnswer (s : List Char) : List Char :=
  let r0 := s.dropWhile jsWs
  let hashes := (r0.takeWhile (fun c => c = '#')).length
  let stripped :=
    if hashes = 0 then tryKeywords kwCandidates r0
    else if hashes ≤ 6 then tryKeywords kwCandidates ((r0.drop hashes).dropWhile jsWs)
    else none
  trimWs (match stripped with | some rest => rest | none => s)

/-- How the reader ends after all delivered chunks (when no done line stopped
it earlier): a clean end of stream, or a rejected read (network failure or
abort). -/
inductive StreamReadEnd : Type
  | clean : StreamReadEnd
  | failed : Bool → StreamReadEnd

/-- Environment of the /chat/stream fetch of askStreaming: the fetch may
reject (abort flag telling whether it was an AbortError), return a non-ok
response, a response without body, or a body delivering chunks. -/
inductive StreamFetchOutcome : Type
  | rejected : Bool → StreamFetchOutcome
  | notOk : StreamFetchOutcome
  | noBody : StreamFetchOutcome
  | chunks : List (List Char) → StreamReadEnd → StreamFetchOutcome

/-- Environment of the /chat fetch of askSync: rejection (with abort flag),
non-ok response, or an ok response whose body either fails r.json() (none) or
parses to a value. -/
inductive SyncFetchOutcome : Type
  | rejected : Bool → SyncFetchOutcome
  | notOk : SyncFetchOutcome
  | okBody : Option JsVal → SyncFetchOutcome

/-- An entry of the QA log (type QaItem, line 1052). -/
structure QaItem where
  q : List Char
  a : List Char
  chunks : List JsVal
  ts : ℕ

/-- Observable outcome of one ask() call. -/
inductive AskOutcome : Type
  | noQuestion : AskOutcome
  | streamAborted : AskOutcome
  | streamed : QaItem → AskOutcome
  | syncAppended : QaItem → AskOutcome
  | syncErrored : AskOutcome
  | syncAborted : AskOutcome

/-- The answer string askSync builds from a parsed body (lines 1203-1205):
`cleanLLMAnswer(isObject(j) && "answer" in j ? String(j.answer ?? "(no
answer)") : "(no answer)")`. -/
def cleanSyncAnswer (j : JsVal) : List Char :=
  cleanLLMAnswer
    (if isObject j && hasField j "answer" then
      jsToString (coalesce (getField j "answer") (.str "(no answer)".toList))
    else "(no answer)".toList)

/-- The chunks askSync keeps from a parsed body (lines 1206-1209). -/
def syncChunks (j : JsVal) : List JsVal :=
  if isObject j then
    (match getField j "chunks" with | .arr xs => xs | _ => [])
  else []

/-- askSync (lines 1175-1225) called from the streaming fallback with the
already-sanitized question: an AbortError appends nothing silently, any other
failure alerts and appends nothing, an ok parsed body appends one entry. -/
def askSyncRun (question : List Char) (ts : ℕ) : SyncFetchOutcome → AskOutcome
  | .rejected ab => if ab then .syncAborted else .syncErrored
  | .notOk => .syncErrored
  | .okBody none => .syncErrored
  | .okBody (some j) => .syncAppended ⟨question, cleanSyncAnswer j, syncChunks j, ts⟩

/-- Environment of one ask: the streaming fetch outcome, the sync fetch
outcome (consulted only if the streaming path falls back), and the Date.now()
timestamp. -/
structure AskEnv where
  stream : StreamFetchOutcome
  sync : SyncFetchOutcome
  ts : ℕ

/-- askStreaming (lines 1086-1173).  The question is sanitized; an empty
result returns immediately.  A fetch rejection, non-ok response or missing
body reaches the outer catch: AbortError ends silently, anything else falls
back to askSync.  With a body, the reader loop runs; if it saw a done line,
or the stream ends cleanly, the accumulated answer is cleaned and appended.
A read failure reaches the outer catch the same way.  A stream line carrying
an error field never reaches the outer catch (its throw is caught by the
per-line catch), so it cannot trigger the fallback. -/
def askStreaming (rawQuestion : List Char) (env : AskEnv) : AskOutcome :=
  let q := sanitizeText rawQuestion MAX_CHAT_LEN
  if q.isEmpty then .noQuestion
  else
    match env.stream with
    | .rejected ab => if ab then .streamAborted else askSyncRun q env.ts env.sync
    | .notOk => askSyncRun q env.ts env.sync
    | .noBody => askSyncRun q env.ts env.sync
    | .chunks cs endKind =>
      let st := runStream cs
      if st.isDone then .streamed ⟨q, cleanLLMAnswer st.acc, [], env.ts⟩
      else
        match endKind with
        | .clean => .streamed ⟨q, cleanLLMAnswer st.acc, [], env.ts⟩
        | .failed ab => if ab then .streamAborted else askSyncRun q env.ts env.sync

/-- The QA-log entries one ask appends (empty or a single entry). -/
def askEntries (rawQuestion : List Char) (env : AskEnv) : List QaItem :=
  match askStreaming rawQuestion env with
  | .streamed e => [e]
  | .syncAppended e => [e]
  | _ => []

-- ===========================================================================
-- ChatPanel state: QA log, Reset and the history toggles (lines 1037-1441)
-- ===========================================================================

/-- The ChatPanel state the QA-log claim is about. -/
structure PanelState where
  question : List Char
  lastQuestion : Option (List Char)
  answer : Option (List Char)
  chunks : List JsVal
  streamingAnswer : List Char
  qaLog : List QaItem
  expandedHistory : List ℕ
  historyExcerpts : List (ℕ × Bool)

/-- Fresh panel state: the component's useState initialisers (lines
1054-1067).  Selecting a different document remounts the panel through the
`key={chat-id}` prop (line 1017), so a newly selected document starts from
exactly this state — in particular with an empty QA log, which is held
nowhere else. -/
def panelInit : PanelState := ⟨[], none, none, [], [], [], [], []⟩

/-- Chat-panel operations: an ask (with its network environment), the Reset
button (lines 1426-1437), and the history expand/collapse and excerpt
toggles (lines 1074-1084). -/
inductive PanelOp : Type
  | ask : AskEnv → PanelOp
  | reset : PanelOp
  | toggleHistory : ℕ → PanelOp
  | toggleHistoryExcerpts : ℕ → PanelOp

/-- Membership toggle for the expanded-history set. -/
def toggleMem (l : List ℕ) (ts : ℕ) : List ℕ :=
  if l.contains ts then l.erase ts else l ++ [ts]

/-- Flag flip for the history-excerpt record. -/
def toggleAssoc (l : List (ℕ × Bool)) (ts : ℕ) : List (ℕ × Bool) :=
  let cur := l.foldl (fun acc p => if p.1 = ts then p.2 else acc) false
  l.filter (fun p => p.1 ≠ ts) ++ [(ts, !cur)]

/-- One chat-panel step. -/
def panelStep (st : PanelState) (op : PanelOp) : PanelState :=
  match op with
  | .ask env =>
    let q := sanitizeText st.question MAX_CHAT_LEN
    if q.isEmpty then st
    else
      let entries := askEntries st.question env
      { st with
          question := [],
          lastQuestion := some q,
          qaLog := st.qaLog ++ entries,
          streamingAnswer := [],
          answer := (match askStreaming st.question env with
            | .streamed e => some e.a
            | .syncAppended e => some e.a
            | _ => none),
          chunks := (match askStreaming st.question env with
            | .syncAppended e => e.chunks
            | _ => []) }
  | .reset =>
    { st with question := [], answer := none, chunks := [], streamingAnswer := [] }
  | .toggleHistory ts => { st with expandedHistory := toggleMem st.expandedHistory ts }
  | .toggleHistoryExcerpts ts =>
    { st with historyExcerpts := toggleAssoc st.historyExcerpts ts }

-- ===========================================================================
-- AbortController discipline (doSearch lines 531-577, ask* lines 1086-1225)
-- ===========================================================================

/-- Abstract state of one abort ref (searchAbortRef for searches,
askAbortRef for chat requests) together with the controllers it has handed
out: a fresh-id counter, the currently stored controller, the set of aborted
controllers and the set of requests issued and not yet settled. -/
structure AbortState where
  nextId : ℕ
  stored : Option ℕ
  aborted : List ℕ
  inFlight : List ℕ

/-- Operations on one abort ref.  `start` is the synchronous prefix every
request-issuing invocation of doSearch / askStreaming / askSync runs before
its fetch: abort the stored controller if any, create a fresh one, store it,
issue the request (lines 538-540 resp. 1090-1092, 1179-1181).  `settle i` is
the finally block of the invocation owning controller i: its request is over,
and the ref is cleared only if it still holds i (lines 574, 1170, 1222).
`abortStored` is the Reset button's bare `askAbortRef.current?.abort()`
(line 1433). -/
inductive AbortOp : Type
  | start : AbortOp
  | settle : ℕ → AbortOp
  | abortStored : AbortOp

/-- One abort-machine step. -/
def abortStep (st : AbortState) : AbortOp → AbortState
  | .start =>
    ⟨st.nextId + 1, some st.nextId,
      (match st.stored with | some j => st.aborted ++ [j] | none => st.aborted),
      st.inFlight ++ [st.nextId]⟩
  | .settle i =>
    ⟨st.nextId, (if st.stored = some i then none else st.stored), st.aborted,
      st.inFlight.erase i⟩
  | .abortStored =>
    ⟨st.nextId, st.stored,
      (match st.stored with | some j => st.aborted ++ [j] | none => st.aborted),
      st.inFlight⟩

/-- Initial abort state: ref null, nothing issued. -/
def abortInit : AbortState := ⟨0, none, [], []⟩

/-- Run a sequence of operations on one abort ref. -/
def runAborts (ops : List AbortOp) : AbortState := ops.foldl abortStep abortInit

/-- The requests issued by the ref's owners that are neither settled nor
aborted. -/
def unabortedInFlight (st : AbortState) : List ℕ :=
  st.inFlight.filter (fun i => !st.aborted.contains i)

-- ===========================================================================
-- toggleExpand and the doc-preview laziness (lines 590-616)
-- ===========================================================================

/-- The two id-bearing fields of a search hit; absent fields are undefined. -/
structure HitRec where
  doc_id : JsVal
  id : JsVal

/-- Result-expansion state.  Besides the expanded set and the recorded
previews, the model carries the in-flight machinery of lines 603-610:
`metaAbort` mirrors the metaAbortRef Map (document id to the controller
stored for it, controllers numbered by `nextCtrl`), `aborted` the controllers
whose abort() has been called, and `pending` the issued preview fetches whose
post-await continuation (lines 609-610) has not run yet.  `fetchLog` is a
ghost list of the document ids for which a fetch was issued, in order.
metaLookup distinguishes a recorded null (failed or aborted fetch, value
some none) from no record at all (none), exactly as
`expandedMeta[idNum] === undefined` does. -/
structure ExpandState where
  expandedSet : List ℚ
  expandedMeta : List (ℚ × Option JsVal)
  metaAbort : List (ℚ × ℕ)
  aborted : List ℕ
  nextCtrl : ℕ
  pending : List (ℕ × ℚ)
  fetchLog : List ℚ

/-- Last-wins lookup in the recorded previews. -/
def metaLookup (m : List (ℚ × Option JsVal)) (k : ℚ) : Option (Option JsVal) :=
  m.foldl (fun acc p => if p.1 = k then some p.2 else acc) none

/-- Lookup in the metaAbortRef map (last-wins). -/
def ctrlLookup (m : List (ℚ × ℕ)) (k : ℚ) : Option ℕ :=
  m.foldl (fun acc p => if p.1 = k then some p.2 else acc) none

/-- `metaAbortRef.current.set(k, c)`: replace any entry for k. -/
def ctrlSet (m : List (ℚ × ℕ)) (k : ℚ) (c : ℕ) : List (ℚ × ℕ) :=
  m.filter (fun p => p.1 ≠ k) ++ [(k, c)]

/-- `metaAbortRef.current.delete(k)`. -/
def ctrlRemove (m : List (ℚ × ℕ)) (k : ℚ) : List (ℚ × ℕ) :=
  m.filter (fun p => p.1 ≠ k)

/-- The document id a pending controller is fetching, if it is pending. -/
def pendingLookup (ps : List (ℕ × ℚ)) (c : ℕ) : Option ℚ :=
  ps.foldl (fun acc p => if p.1 = c then some p.2 else acc) none

/-- Drop a settled controller from the pending list. -/
def pendingRemove (ps : List (ℕ × ℚ)) (c : ℕ) : List (ℕ × ℚ) :=
  ps.filter (fun p => p.1 ≠ c)

/-- toggleExpand (lines 590-616), the part that runs synchronously up to the
`await fetchDocPreview` of line 608.  If that point is reached, the stored
controller for the id (if any) is aborted (line 604), a fresh controller is
stored (lines 605-606) and the fetch is issued: the id goes on the ghost
`fetchLog` and the continuation becomes pending.  The recording of the result
happens later, in `toggleExpandResume`. -/
def toggleExpand (st : ExpandState) (h : HitRec) : ExpandState :=
  let docId := coalesce h.doc_id h.id
  if nullishV docId then st
  else
    match jsToNumber docId with
    | .fin idNum =>
      if st.expandedSet.contains idNum then
        { st with expandedSet := st.expandedSet.erase idNum }
      else
        let st1 := { st with expandedSet := st.expandedSet ++ [idNum] }
        match metaLookup st.expandedMeta idNum with
        | some _ => st1
        | none =>
          { st1 with
              aborted := st1.aborted ++ (ctrlLookup st1.metaAbort idNum).toList,
              metaAbort := ctrlSet st1.metaAbort idNum st1.nextCtrl,
              nextCtrl := st1.nextCtrl + 1,
              pending := st1.pending ++ [(st1.nextCtrl, idNum)],
              fetchLog := st1.fetchLog ++ [idNum] }
    | _ => st

/-- The continuation of toggleExpand after the awaited fetchDocPreview call
of controller c settles with result `meta` (none for a null, which
fetchDocPreview returns on every failure, abort included - the continuation
runs and records it regardless): record the preview (line 609) and delete
the metaAbortRef entry for the id if it still holds this very controller
(line 610).  A resume for a controller that is not pending does nothing. -/
def toggleExpandResume (st : ExpandState) (c : ℕ) (meta : Option JsVal) :
    ExpandState :=
  match pendingLookup st.pending c with
  | none => st
  | some idNum =>
    let st1 := { st with
        pending := pendingRemove st.pending c,
        expandedMeta := st.expandedMeta ++ [(idNum, meta)] }
    if ctrlLookup st1.metaAbort idNum = some c then
      { st1 with metaAbort := ctrlRemove st1.metaAbort idNum }
    else st1

/-- One interleaving event: either a toggleExpand call runs (its synchronous
part), or some outstanding preview fetch settles and its continuation runs. -/
inductive ExpandOp where
  | toggle : HitRec → ExpandOp
  | resume : ℕ → Option JsVal → ExpandOp

def expandStep (st : ExpandState) : ExpandOp → ExpandState
  | .toggle h => toggleExpand st h
  | .resume c m => toggleExpandResume st c m

/-- Empty expansion state (the reset performed on every new result set,
lines 566-567). -/
def expandInit : ExpandState := ⟨[], [], [], [], 0, [], []⟩

/-- Run an arbitrary interleaving of toggles and fetch completions from a
fresh result set. -/
def runExpandOps (ops : List ExpandOp) : ExpandState :=
  ops.foldl expandStep expandInit

/-- The sequential regime: each toggle's fetch (if it issued one - its
controller is then the pre-toggle nextCtrl) settles and records before the
next toggle runs. -/
def runSeqToggles : ExpandState → List (HitRec × Option JsVal) → ExpandState
  | st, [] => st
  | st, (h, m) :: rest =>
    runSeqToggles (toggleExpandResume (toggleExpand st h) st.nextCtrl m) rest

-- ===========================================================================
-- Theorems.  C9: sanitizeText
-- ===========================================================================

theorem noWsPair_tail (c : Char) (cs : List Char)
    (h : noWsPair (c :: cs) = true) : noWsPair cs = true := by
  cases cs with
  | nil => rfl
  | cons d t =>
    have := h
    simp only [noWsPair, Bool.and_eq_true] at this
    exact this.2

theorem head_dropWhile_not (p : Char → Bool) (l : List Char) :
    ∀ c, (l.dropWhile p).head? = some c → p c = false := by
  induction l with
  | nil => intro c h; simp [List.dropWhile] at h
  | cons a as ih =>
    intro c h
    cases hp : p a with
    | true => rw [List.dropWhile_cons_of_pos hp] at h; exact ih c h
    | false =>
      rw [List.dropWhile_cons_of_neg (by simp [hp])] at h
      simp only [List.head?_cons, Option.some.injEq] at h
      rw [← h]; exact hp

theorem dropWhile_id_of_head (l : List Char)
    (h : ∀ c, l.head? = some c → jsWs c = false) : l.dropWhile jsWs = l := by
  cases l with
  | nil => rfl
  | cons a as =>
    have := h a (by simp)
    exact List.dropWhile_cons_of_neg (by simp [this])

theorem noWsPair_dropWhile (p : Char → Bool) (l : List Char)
    (h : noWsPair l = true) : noWsPair (l.dropWhile p) = true := by
  induction l with
  | nil => exact h
  | cons a as ih =>
    cases hp : p a with
    | true => rw [List.dropWhile_cons_of_pos hp]; exact ih (noWsPair_tail a as h)
    | false => rw [List.dropWhile_cons_of_neg (by simp [hp])]; exact h

theorem all_dropWhile (p q : Char → Bool) (l : List Char)
    (h : l.all p = true) : (l.dropWhile q).all p = true := by
  rw [List.all_eq_true] at h ⊢
  intro x hx
  exact h x ((List.dropWhile_sublist _).subset hx)

theorem dropTrailingWs_length_le (l : List Char) :
    (dropTrailingWs l).length ≤ l.length := by
  induction l with
  | nil => simp [dropTrailingWs]
  | cons a as ih =>
    simp only [dropTrailingWs]
    split
    · simp
    · simpa using ih

theorem dropTrailingWs_head (l : List Char) :
    dropTrailingWs l = [] ∨ (dropTrailingWs l).head? = l.head? := by
  cases l with
  | nil => left; rfl
  | cons a as =>
    simp only [dropTrailingWs]
    split
    · left; rfl
    · right; simp

theorem dropTrailingWs_getLast_not (l : List Char) :
    ∀ c, (dropTrailingWs l).getLast? = some c → jsWs c = false := by
  induction l with
  | nil => intro c h; simp [dropTrailingWs] at h
  | cons a as ih =>
    intro c h
    simp only [dropTrailingWs] at h
    by_cases hcond : (dropTrailingWs as).isEmpty && jsWs a
    · rw [if_pos hcond] at h; simp at h
    · rw [if_neg hcond] at h
      cases hr : dropTrailingWs as with
      | nil =>
        rw [hr] at h
        simp only [List.getLast?_singleton, Option.some.injEq] at h
        subst h
        rw [hr] at hcond
        simpa using hcond
      | cons b t =>
        rw [hr] at h
        rw [List.getLast?_cons_cons] at h
        rw [← hr] at h
        exact ih c h

theorem all_dropTrailingWs (p : Char → Bool) (l : List Char)
    (h : l.all p = true) : (dropTrailingWs l).all p = true := by
  induction l with
  | nil => exact h
  | cons a as ih =>
    simp only [List.all_cons, Bool.and_eq_true] at h
    simp only [dropTrailingWs]
    split
    · rfl
    · simp only [List.all_cons, Bool.and_eq_true]
      exact ⟨h.1, ih h.2⟩

theorem noWsPair_dropTrailingWs (l : List Char)
    (h : noWsPair l = true) : noWsPair (dropTrailingWs l) = true := by
  induction l with
  | nil => exact h
  | cons a as ih =>
    simp only [dropTrailingWs]
    split
    · rfl
    · have htail := ih (noWsPair_tail a as h)
      cases hr : dropTrailingWs as with
      | nil => rfl
      | cons b t =>
        rcases dropTrailingWs_head as with he | hh
        · rw [he] at hr; exact absurd hr (by simp)
        · rw [hr] at hh
          cases as with
          | nil => simp at hh
          | cons a2 as2 =>
            simp only [List.head?_cons, Option.some.injEq] at hh
            subst hh
            simp only [noWsPair, Bool.and_eq_true] at h ⊢
            rw [hr] at htail
            exact ⟨h.1, htail⟩

theorem dropTrailingWs_id (l : List Char)
    (h : ∀ c, l.getLast? = some c → jsWs c = false) : dropTrailingWs l = l := by
  induction l with
  | nil => rfl
  | cons a as ih =>
    cases as with
    | nil =>
      have := h a rfl
      simp [dropTrailingWs, this]
    | cons b t =>
      have hlast : ∀ c, (b :: t).getLast? = some c → jsWs c = false := by
        intro c hc
        apply h
        rw [List.getLast?_cons_cons]
        exact hc
      have hr := ih hlast
      have hstep : dropTrailingWs (a :: b :: t) =
          if (dropTrailingWs (b :: t)).isEmpty && jsWs a then []
          else a :: dropTrailingWs (b :: t) := rfl
      rw [hstep, hr]
      simp

theorem trimWs_length_le (l : List Char) : (trimWs l).length ≤ l.length :=
  le_trans (dropTrailingWs_length_le _) ((List.dropWhile_sublist _).length_le)

theorem trimWs_head_not (l : List Char) :
    ∀ c, (trimWs l).head? = some c → jsWs c = false := by
  intro c h
  unfold trimWs at h
  rcases dropTrailingWs_head (l.dropWhile jsWs) with he | hh
  · rw [he] at h; simp at h
  · rw [hh] at h
    exact head_dropWhile_not jsWs l c h

theorem trimWs_getLast_not (l : List Char) :
    ∀ c, (trimWs l).getLast? = some c → jsWs c = false :=
  fun c h => dropTrailingWs_getLast_not _ c h

theorem trimWs_id (l : List Char)
    (hh : ∀ c, l.head? = some c → jsWs c = false)
    (hl : ∀ c, l.getLast? = some c → jsWs c = false) : trimWs l = l := by
  unfold trimWs
  rw [dropWhile_id_of_head l hh]
  exact dropTrailingWs_id l hl

theorem collapseAux_true_head (l : List Char) :
    ∀ c, (collapseWsAux true l).head? = some c → jsWs c = false := by
  induction l with
  | nil => intro c h; simp [collapseWsAux] at h
  | cons a as ih =>
    intro c h
    cases ha : jsWs a with
    | true =>
      simp only [collapseWsAux, ha, if_true] at h
      exact ih c h
    | false =>
      simp only [collapseWsAux, ha] at h
      simp only [Bool.false_eq_true, if_false, List.head?_cons, Option.some.injEq] at h
      rw [← h]; exact ha


theorem noWsPair_cons (c : Char) (l : List Char)
    (hc : noWsPair l = true)
    (hpair : ∀ d, l.head? = some d → (jsWs c && jsWs d) = false) :
    noWsPair (c :: l) = true := by
  cases l with
  | nil => rfl
  | cons d t =>
    simp only [noWsPair, Bool.and_eq_true]
    exact ⟨by simp [hpair d (by simp)], hc⟩

theorem noWsPair_collapseAux (l : List Char) : ∀ b, noWsPair (collapseWsAux b l) = true := by
  induction l with
  | nil => intro b; rfl
  | cons a as ih =>
    intro b
    cases ha : jsWs a with
    | true =>
      cases b with
      | true => simp only [collapseWsAux, ha, if_true]; exact ih true
      | false =>
        simp only [collapseWsAux, ha, if_true, Bool.false_eq_true, if_false]
        refine noWsPair_cons _ _ (ih true) ?_
        intro d hd
        simp [collapseAux_true_head as d hd]
    | false =>
      simp only [collapseWsAux, ha, Bool.false_eq_true, if_false]
      refine noWsPair_cons _ _ (ih false) ?_
      intro d _
      simp [ha]

theorem wsOnlySpace_collapseAux (l : List Char) :
    ∀ b, wsOnlySpace (collapseWsAux b l) = true := by
  induction l with
  | nil => intro b; rfl
  | cons a as ih =>
    intro b
    cases ha : jsWs a with
    | true =>
      cases b with
      | true => simp only [collapseWsAux, ha, if_true]; exact ih true
      | false =>
        simp only [collapseWsAux, ha, if_true, Bool.false_eq_true, if_false]
        simp only [wsOnlySpace, List.all_cons, Bool.and_eq_true]
        exact ⟨by simp, ih true⟩
    | false =>
      simp only [collapseWsAux, ha, Bool.false_eq_true, if_false]
      simp only [wsOnlySpace, List.all_cons, Bool.and_eq_true]
      exact ⟨by simp [ha], ih false⟩

theorem noWsPair_take (l : List Char) (n : ℕ) (h : noWsPair l = true) :
    noWsPair (l.take n) = true := by
  induction l generalizing n with
  | nil => rw [List.take_nil]; rfl
  | cons a as ih =>
    cases n with
    | zero => rfl
    | succ m =>
      rw [List.take_succ_cons]
      refine noWsPair_cons _ _ (ih m (noWsPair_tail a as h)) ?_
      intro d hd
      cases as with
      | nil => simp at hd
      | cons b t =>
        cases m with
        | zero => simp at hd
        | succ k =>
          rw [List.take_succ_cons] at hd
          simp only [List.head?_cons, Option.some.injEq] at hd
          subst hd
          simp only [noWsPair, Bool.and_eq_true] at h
          have := h.1
          simp only [Bool.not_eq_true'] at this
          exact this

theorem collapseAux_id (l : List Char) :
    ∀ b, wsOnlySpace l = true → noWsPair l = true →
    (b = true → ∀ c, l.head? = some c → jsWs c = false) →
    collapseWsAux b l = l := by
  induction l with
  | nil => intro b _ _ _; rfl
  | cons a as ih =>
    intro b hsp hnp hb
    have hsp' : wsOnlySpace as = true := by
      simp only [wsOnlySpace, List.all_cons, Bool.and_eq_true] at hsp
      exact hsp.2
    cases ha : jsWs a with
    | true =>
      cases b with
      | true => exact absurd ha (by simp [hb rfl a (by simp)])
      | false =>
        have haSpace : a = ' ' := by
          simp only [wsOnlySpace, List.all_cons, Bool.and_eq_true] at hsp
          have := hsp.1
          simp only [ha, Bool.not_true, Bool.false_or, decide_eq_true_eq] at this
          exact this
        have hhead : ∀ c, as.head? = some c → jsWs c = false := by
          intro c hc
          cases as with
          | nil => simp at hc
          | cons d t =>
            simp only [List.head?_cons, Option.some.injEq] at hc
            subst hc
            simp only [noWsPair, Bool.and_eq_true] at hnp
            have := hnp.1
            simpa [ha] using this
        have hrec := ih true hsp' (noWsPair_tail a as hnp) (fun _ => hhead)
        simp only [collapseWsAux, ha, if_true, Bool.false_eq_true, if_false, hrec, haSpace]
        rw [if_pos (show jsWs ' ' = true from rfl)]
    | false =>
      have hrec := ih false hsp' (noWsPair_tail a as hnp)
        (by intro hfalse; exact absurd hfalse (by simp))
      simp only [collapseWsAux, ha, Bool.false_eq_true, if_false, hrec]

/-- C9: for every string s and non-negative bound max, sanitizeText(s, max)
has length at most max, no leading or trailing whitespace, every whitespace
character in it is the plain space and no two adjacent characters are both
whitespace (every internal whitespace run is a single space); consequently
sanitizeText is idempotent: sanitizeText(sanitizeText(s, max), max) =
sanitizeText(s, max). -/
theorem sanitizeText_spec (s : List Char) (maxLen : ℕ) :
    (sanitizeText s maxLen).length ≤ maxLen ∧
    noEdgeWs (sanitizeText s maxLen) = true ∧
    wsOnlySpace (sanitizeText s maxLen) = true ∧
    noWsPair (sanitizeText s maxLen) = true ∧
    sanitizeText (sanitizeText s maxLen) maxLen = sanitizeText s maxLen := by
  have hlen : (sanitizeText s maxLen).length ≤ maxLen :=
    le_trans (trimWs_length_le _) (List.length_take_le _ _)
  have hhead : ∀ c, (sanitizeText s maxLen).head? = some c → jsWs c = false :=
    fun c h => trimWs_head_not _ c h
  have hlast : ∀ c, (sanitizeText s maxLen).getLast? = some c → jsWs c = false :=
    fun c h => trimWs_getLast_not _ c h
  have hedge : noEdgeWs (sanitizeText s maxLen) = true := by
    unfold noEdgeWs
    rw [Bool.and_eq_true]
    constructor
    · cases hh : (sanitizeText s maxLen).head? with
      | none => rfl
      | some c => simp [hhead c hh]
    · cases hh : (sanitizeText s maxLen).getLast? with
      | none => rfl
      | some c => simp [hlast c hh]
  have hsp : wsOnlySpace (sanitizeText s maxLen) = true := by
    unfold sanitizeText trimWs
    apply all_dropTrailingWs
    apply all_dropWhile
    rw [List.all_eq_true]
    intro x hx
    have hall := wsOnlySpace_collapseAux s false
    unfold wsOnlySpace at hall
    rw [List.all_eq_true] at hall
    exact hall x ((List.take_sublist _ _).subset hx)
  have hnp : noWsPair (sanitizeText s maxLen) = true := by
    unfold sanitizeText trimWs
    apply noWsPair_dropTrailingWs
    apply noWsPair_dropWhile
    exact noWsPair_take _ _ (noWsPair_collapseAux s false)
  refine ⟨hlen, hedge, hsp, hnp, ?_⟩
  have hcoll : collapseWs (sanitizeText s maxLen) = sanitizeText s maxLen := by
    unfold collapseWs
    exact collapseAux_id _ false hsp hnp (by intro hfalse; exact absurd hfalse (by simp))
  have hstep : sanitizeText (sanitizeText s maxLen) maxLen
      = trimWs ((collapseWs (sanitizeText s maxLen)).take maxLen) := rfl
  rw [hstep, hcoll, List.take_of_length_le hlen]
  exact trimWs_id _ hhead hlast

-- ===========================================================================
-- C5: computePrevOffset / computeNextOffset
-- ===========================================================================

theorem jsMax_fin_char (q : ℚ) (y : JsNum) (hy : y ≠ .nan) :
    jsMax (.fin q) y = .inf true ∨ ∃ r, jsMax (.fin q) y = .fin r ∧ q ≤ r := by
  cases y with
  | nan => exact absurd rfl hy
  | inf b =>
    cases b with
    | true => left; rfl
    | false => right; exact ⟨q, rfl, le_refl q⟩
  | fin r =>
    right
    by_cases h : q < r
    · exact ⟨r, by simp [jsMax, jsLtB, h], le_of_lt h⟩
    · exact ⟨q, by simp [jsMax, jsLtB, h], le_refl q⟩

theorem jsLeB_fin_jsMax (q : ℚ) (y : JsNum) (hy : y ≠ .nan) :
    jsLeB (.fin q) (jsMax (.fin q) y) = true := by
  rcases jsMax_fin_char q y hy with h | ⟨r, h, hle⟩
  · rw [h]; rfl
  · rw [h]; simp [jsLeB, hle]

theorem jsMax_fin_ne_inf_false (q : ℚ) (y : JsNum) :
    jsMax (.fin q) y ≠ .inf false := by
  cases y with
  | nan => simp [jsMax]
  | inf b => cases b <;> simp [jsMax, jsLtB]
  | fin r => by_cases h : q < r <;> simp [jsMax, jsLtB, h]

theorem jsMax_fin_inf_true (q : ℚ) (y : JsNum)
    (h : jsMax (.fin q) y = .inf true) : y = .inf true := by
  cases y with
  | nan => simp [jsMax] at h
  | inf b =>
    cases b with
    | true => rfl
    | false => simp [jsMax, jsLtB] at h
  | fin r => by_cases hlt : q < r <;> simp [jsMax, jsLtB, hlt] at h

theorem jsSub_ne_nan (x y : JsNum) (hx : x ≠ .nan) (hy : y ≠ .nan)
    (hne : ∀ b, ¬(x = .inf b ∧ y = .inf b)) : jsSub x y ≠ .nan := by
  cases x with
  | nan => exact absurd rfl hx
  | inf a =>
    cases y with
    | nan => exact absurd rfl hy
    | inf b =>
      have hab : a ≠ b := fun h => hne a ⟨rfl, by rw [h]⟩
      cases a <;> cases b
      · exact absurd rfl hab
      · simp [jsSub, jsNeg, jsAdd]
      · simp [jsSub, jsNeg, jsAdd]
      · exact absurd rfl hab
    | fin r => simp [jsSub, jsNeg, jsAdd]
  | fin q =>
    cases y with
    | nan => exact absurd rfl hy
    | inf b => simp [jsSub, jsNeg, jsAdd]
    | fin r => simp [jsSub, jsNeg, jsAdd]

/-- C5 counterexample: normalizeSearchPayload can store +Infinity into the
offset and limit state (e.g. a payload whose offset and limit are 1e999 —
Math.max removes neither infinities nor, for nextOffset/prevOffset, NaN).
With prev_offset null and offset = limit = +Infinity, computePrevOffset
returns Math.max(0, Infinity - Infinity) = Math.max(0, NaN) = NaN, and
NaN >= 0 is false: the result is not always >= 0. -/
theorem computePrevOffset_nan_counterexample :
    computePrevOffset ⟨none, none, .inf true, .inf true, 0⟩ = .nan ∧
    jsLeB (.fin 0)
      (computePrevOffset ⟨none, none, .inf true, .inf true, 0⟩) = false :=
  ⟨rfl, rfl⟩

/-- C5 as amended: computePrevOffset returns the server prev_offset exactly
when it is non-null and >= 0 under the JS comparison, otherwise
max(0, offset - max(1, limit)); the result is >= 0 whenever offset and limit
are not NaN and not both +Infinity (in particular whenever they are finite —
in the excluded states the fallback is NaN and NaN >= 0 is false).
computeNextOffset returns the server next_offset when non-null, null when the
page is short under the JS comparison (results.length < max(1, limit)), and
offset + max(1, limit) otherwise. -/
theorem computeOffsets_spec (s : PageState) :
    (∀ p, s.prevOffset = some p → jsLeB (.fin 0) p = true →
      computePrevOffset s = p) ∧
    ((s.prevOffset = none ∨
        ∃ p, s.prevOffset = some p ∧ jsLeB (.fin 0) p = false) →
      computePrevOffset s = jsMax (.fin 0) (jsSub s.offset (jsMax (.fin 1) s.limit))) ∧
    (s.offset ≠ .nan → s.limit ≠ .nan →
      ¬(s.offset = .inf true ∧ s.limit = .inf true) →
      jsLeB (.fin 0) (computePrevOffset s) = true) ∧
    (∀ n, s.nextOffset = some n → computeNextOffset s = some n) ∧
    (s.nextOffset = none →
      jsLtB (.fin (s.resultsLen : ℚ)) (jsMax (.fin 1) s.limit) = true →
      computeNextOffset s = none) ∧
    (s.nextOffset = none →
      jsLtB (.fin (s.resultsLen : ℚ)) (jsMax (.fin 1) s.limit) = false →
      computeNextOffset s = some (jsAdd s.offset (jsMax (.fin 1) s.limit))) := by
  refine ⟨?_, ?_, ?_, ?_, ?_, ?_⟩
  · intro p hp h0
    unfold computePrevOffset
    rw [hp]
    simp [h0]
  · intro hcase
    unfold computePrevOffset
    rcases hcase with hn | ⟨p, hp, hneg⟩
    · rw [hn]
    · rw [hp]
      simp [hneg]
  · intro ho hl hb
    have hM : jsMax (.fin 1) s.limit ≠ .nan := by
      cases hlv : s.limit with
      | nan => exact absurd hlv hl
      | inf b => cases b <;> simp [jsMax, jsLtB]
      | fin r => by_cases hlt : (1 : ℚ) < r <;> simp [jsMax, jsLtB, hlt]
    have hfall : jsLeB (.fin 0)
        (jsMax (.fin 0) (jsSub s.offset (jsMax (.fin 1) s.limit))) = true := by
      apply jsLeB_fin_jsMax
      apply jsSub_ne_nan s.offset _ ho hM
      intro b hbb
      cases b with
      | true => exact hb ⟨hbb.1, jsMax_fin_inf_true 1 s.limit hbb.2⟩
      | false => exact jsMax_fin_ne_inf_false 1 s.limit hbb.2
    unfold computePrevOffset
    cases hp : s.prevOffset with
    | none => exact hfall
    | some p =>
      show jsLeB (.fin 0)
        (if jsLeB (.fin 0) p then p
         else jsMax (.fin 0) (jsSub s.offset (jsMax (.fin 1) s.limit))) = true
      by_cases h0 : jsLeB (.fin 0) p = true
      · rw [if_pos h0]
        exact h0
      · rw [if_neg h0]
        exact hfall
  · intro n hn
    unfold computeNextOffset
    rw [hn]
  · intro hn hshort
    unfold computeNextOffset
    rw [hn]
    simp [hshort]
  · intro hn hlong
    unfold computeNextOffset
    rw [hn]
    simp [hlong]

/-- C5 witness: a finite concrete state exercising the server prev_offset
clause, the non-negativity clause and the short-page clause. -/
theorem computeOffsets_spec_witness :
    computePrevOffset ⟨some (.fin 5), none, .fin 30, .fin 10, 3⟩ = .fin 5 ∧
    jsLeB (.fin 0)
      (computePrevOffset ⟨some (.fin 5), none, .fin 30, .fin 10, 3⟩) = true ∧
    computeNextOffset ⟨some (.fin 5), none, .fin 30, .fin 10, 3⟩ = none :=
  ⟨(computeOffsets_spec ⟨some (.fin 5), none, .fin 30, .fin 10, 3⟩).1
      (.fin 5) rfl (by decide),
   (computeOffsets_spec ⟨some (.fin 5), none, .fin 30, .fin 10, 3⟩).2.2.1
      (by decide) (by decide) (by decide),
   (computeOffsets_spec ⟨some (.fin 5), none, .fin 30, .fin 10, 3⟩).2.2.2.2.1
      rfl (by decide)⟩

-- ===========================================================================
-- C6: fetchDocPreview
-- ===========================================================================

/-- C6 counterexample: an OK response whose body parses to a JSON array — not
a JSON object in the sense of the JSON grammar — is returned as the metadata
instead of null, because the code's isObject test also accepts arrays. -/
theorem fetchDocPreview_array_counterexample :
    fetchDocPreview (.response true (some (.arr []))) = some (.arr []) ∧
    isJsonObject (.arr []) = false :=
  ⟨rfl, rfl⟩

/-- C6 as amended: fetchDocPreview returns the parsed body exactly when the
response is OK and the body parses to a non-null value of JS object type
(the code's isObject test, satisfied by objects and arrays alike), and
returns null — never throwing, the model being a total function — in every
other case: non-OK status, unparseable body, non-object body (null included)
and fetch rejection (network failure or abort). -/
theorem fetchDocPreview_matches_spec (o : FetchOutcome) :
    fetchDocPreview o = fetchDocPreviewSpec o := by
  cases o with
  | failure => rfl
  | response ok body =>
    cases ok with
    | false => cases body <;> rfl
    | true =>
      cases body with
      | none => rfl
      | some j => cases j <;> rfl

-- ===========================================================================
-- C4: normalizeSearchPayload page / totalPages reconciliation
-- ===========================================================================

/-- C4: for every object payload (every value passing the code's isObject
test), the normalized page and totalPages equal the spec-side formulas
specPageC4 and specTotalPagesC4 read off the claim: the server override when
it coerces to a finite number greater than 0, otherwise
floor(offset / max(1, limit)) + 1 for page, and otherwise
max(1, ceil(total_count / max(1, limit))) when total_count is a number and
null when it is not, for totalPages. -/
theorem normalizeSearchPayload_page_totalPages (data : JsVal)
    (h : isObject data = true) :
    (normalizeSearchPayload data).page = specPageC4 data ∧
    (normalizeSearchPayload data).totalPages = specTotalPagesC4 data := by
  cases data with
  | arr xs =>
    refine ⟨rfl, ?_⟩
    show (normalizeSearchPayload (.arr xs)).totalPages = specTotalPagesC4 (.arr xs)
    rfl
  | obj fs =>
    refine ⟨rfl, ?_⟩
    show (normalizeSearchPayload (.obj fs)).totalPages = specTotalPagesC4 (.obj fs)
    simp only [normalizeSearchPayload, specTotalPagesC4, getField, isObject, if_true]
    generalize getFieldList fs "total_count" = x
    cases x <;> rfl
  | undefined => simp [isObject] at h
  | null => simp [isObject] at h
  | bool b => simp [isObject] at h
  | num n => simp [isObject] at h
  | str s => simp [isObject] at h

/-- C4 witness: a concrete object payload with a fractional server page and
a numeric total_count. -/
theorem normalizeSearchPayload_page_totalPages_witness :
    (normalizeSearchPayload (.obj [("page", .num (.fin 3)),
        ("total_count", .num (.fin 95)), ("limit", .num (.fin 10))])).page
      = specPageC4 (.obj [("page", .num (.fin 3)),
        ("total_count", .num (.fin 95)), ("limit", .num (.fin 10))]) ∧
    (normalizeSearchPayload (.obj [("page", .num (.fin 3)),
        ("total_count", .num (.fin 95)), ("limit", .num (.fin 10))])).totalPages
      = specTotalPagesC4 (.obj [("page", .num (.fin 3)),
        ("total_count", .num (.fin 95)), ("limit", .num (.fin 10))]) :=
  normalizeSearchPayload_page_totalPages _ rfl

-- ===========================================================================
-- C10: totality and well-formedness of normalizeSearchPayload
-- ===========================================================================

theorem numOr_ne_nan (x d : JsNum) (hd : d ≠ .nan) : numOr x d ≠ .nan := by
  by_cases ht : jsTruthyNum x = true
  · simp only [numOr, ht, if_true]
    intro hx
    subst hx
    simp [jsTruthyNum] at ht
  · simp only [numOr, ht, if_false]
    exact hd

theorem jsDiv_pos_den (a : ℚ) (x : JsNum)
    (hx : x = .inf true ∨ ∃ r, x = .fin r ∧ 1 ≤ r) :
    jsDiv (.fin a) x = .fin 0 ∨ ∃ v, jsDiv (.fin a) x = .fin v ∧ (0 ≤ a → 0 ≤ v) := by
  rcases hx with h | ⟨r, h, hr⟩
  · left; rw [h]; rfl
  · right
    rw [h]
    have hr0 : r ≠ 0 := by positivity
    refine ⟨a / r, by simp [jsDiv, hr0], ?_⟩
    intro ha
    positivity

/-- Core well-formedness of the object branch of normalizeSearchPayload, for
arbitrary raw coercions yl (limit), yo (offset), pApi, tpApi and totalCount
tc, with yl and yo not NaN (the `|| default` step has removed NaN). -/
theorem normCoreWellformed (yl yo pApi tpApi : JsNum) (tc : Option JsNum)
    (hyl : yl ≠ .nan) (hyo : yo ≠ .nan) :
    jsLeB (.fin 1) (jsMax (.fin 1) yl) = true ∧
    jsLeB (.fin 0) (jsMax (.fin 0) yo) = true ∧
    (¬(jsMax (.fin 0) yo = .inf true ∧ jsMax (.fin 1) yl = .inf true) →
      jsLtB (.fin 0)
        (if jsIsFiniteB pApi && jsLtB (.fin 0) pApi then pApi
          else jsAdd (jsFloor (jsDiv (jsMax (.fin 0) yo)
            (jsMax (.fin 1) (jsMax (.fin 1) yl)))) (.fin 1)) = true) ∧
    ((jsIsFiniteB pApi && jsLtB (.fin 0) pApi) = false →
      ¬(jsMax (.fin 0) yo = .inf true ∧ jsMax (.fin 1) yl = .inf true) →
      jsLeB (.fin 1)
        (if jsIsFiniteB pApi && jsLtB (.fin 0) pApi then pApi
          else jsAdd (jsFloor (jsDiv (jsMax (.fin 0) yo)
            (jsMax (.fin 1) (jsMax (.fin 1) yl)))) (.fin 1)) = true) ∧
    (∀ tp,
      (if jsIsFiniteB tpApi && jsLtB (.fin 0) tpApi then some tpApi
        else match tc with
          | some n => some (jsMax (.fin 1) (jsCeil (jsDiv n (jsMax (.fin 1) (jsMax (.fin 1) yl)))))
          | none => none) = some tp →
      tc ≠ some .nan →
      (jsMax (.fin 1) yl = .inf true → ∀ b, tc ≠ some (.inf b)) →
      jsLtB (.fin 0) tp = true) ∧
    (∀ tp,
      (if jsIsFiniteB tpApi && jsLtB (.fin 0) tpApi then some tpApi
        else match tc with
          | some n => some (jsMax (.fin 1) (jsCeil (jsDiv n (jsMax (.fin 1) (jsMax (.fin 1) yl)))))
          | none => none) = some tp →
      (jsIsFiniteB tpApi && jsLtB (.fin 0) tpApi) = false →
      tc ≠ some .nan →
      (jsMax (.fin 1) yl = .inf true → ∀ b, tc ≠ some (.inf b)) →
      jsLeB (.fin 1) tp = true) := by
  have hlim := jsMax_fin_char 1 yl hyl
  have hoff := jsMax_fin_char 0 yo hyo
  have hlim2 : jsMax (.fin 1) (jsMax (.fin 1) yl) = .inf true ∨
      ∃ r, jsMax (.fin 1) (jsMax (.fin 1) yl) = .fin r ∧ 1 ≤ r := by
    rcases hlim with h | ⟨r, h, hr⟩
    · left; rw [h]; rfl
    · right
      rw [h]
      refine ⟨max 1 r, ?_, le_max_left 1 r⟩
      by_cases hlt : (1 : ℚ) < r
      · simp [jsMax, jsLtB, hlt, max_eq_right (le_of_lt hlt)]
      · simp [jsMax, jsLtB, hlt, max_eq_left (not_lt.mp hlt)]
  have hlim2_of_fin : ∀ r, jsMax (.fin 1) yl = .fin r →
      jsMax (.fin 1) (jsMax (.fin 1) yl) ≠ .inf true := by
    intro r h
    rw [h]
    by_cases hlt : (1 : ℚ) < r <;> simp [jsMax, jsLtB, hlt]
  -- the computed page is positive whenever offset and limit are not both +inf
  have hcomp : ¬(jsMax (.fin 0) yo = .inf true ∧ jsMax (.fin 1) yl = .inf true) →
      jsLtB (.fin 0)
        (jsAdd (jsFloor (jsDiv (jsMax (.fin 0) yo)
          (jsMax (.fin 1) (jsMax (.fin 1) yl)))) (.fin 1)) = true ∧
      jsLeB (.fin 1)
        (jsAdd (jsFloor (jsDiv (jsMax (.fin 0) yo)
          (jsMax (.fin 1) (jsMax (.fin 1) yl)))) (.fin 1)) = true := by
    intro hnot
    rcases hoff with ho | ⟨r, ho, hr⟩
    · -- offset = +inf, hence limit is finite
      rcases hlim with hl | ⟨s, hl, hs⟩
      · exact absurd ⟨ho, hl⟩ hnot
      · rcases hlim2 with hd | ⟨x, hd, hx⟩
        · exact absurd hd (hlim2_of_fin s hl)
        · rw [ho, hd]
          have hx0 : ¬(x < 0) := not_lt.mpr (le_trans zero_le_one hx)
          simp [jsDiv, jsFloor, jsAdd, jsLtB, jsLeB, hx0]
    · -- offset finite
      rcases hlim2 with hd | ⟨x, hd, hx⟩
      · rw [ho, hd]
        simp [jsDiv, jsFloor, jsAdd, jsLtB, jsLeB]
      · rw [ho, hd]
        have hx0 : x ≠ 0 := by positivity
        have hq : (0 : ℚ) ≤ r / x := by positivity
        have hfl : (0 : ℤ) ≤ ⌊r / x⌋ := Int.floor_nonneg.mpr hq
        have hflq : (0 : ℚ) ≤ (⌊r / x⌋ : ℤ) := by exact_mod_cast hfl
        simp only [jsDiv, hx0, if_false, jsFloor, jsAdd, jsLtB, jsLeB]
        constructor
        · simp only [decide_eq_true_eq]
          linarith
        · simp only [decide_eq_true_eq]
          linarith
  refine ⟨jsLeB_fin_jsMax 1 yl hyl, jsLeB_fin_jsMax 0 yo hyo, ?_, ?_, ?_, ?_⟩
  · intro hnot
    by_cases hc : (jsIsFiniteB pApi && jsLtB (.fin 0) pApi) = true
    · rw [if_pos hc]
      exact (Bool.and_eq_true _ _ |>.mp hc).2
    · rw [if_neg hc]
      exact (hcomp hnot).1
  · intro hc hnot
    rw [if_neg (by simp [hc])]
    exact (hcomp hnot).2
  · intro tp htp htcnan htcinf
    by_cases hc : (jsIsFiniteB tpApi && jsLtB (.fin 0) tpApi) = true
    · rw [if_pos hc] at htp
      cases htp
      exact (Bool.and_eq_true _ _ |>.mp hc).2
    · rw [if_neg hc] at htp
      cases htc : tc with
      | none => rw [htc] at htp; cases htp
      | some n =>
        rw [htc] at htp
        simp only [Option.some.injEq] at htp
        subst htp
        have hz : jsCeil (jsDiv n (jsMax (.fin 1) (jsMax (.fin 1) yl))) ≠ .nan := by
          cases n with
          | nan => exact absurd htc (by rw [htc] at htcnan ⊢; exact htcnan)
          | inf b =>
            rcases hlim2 with hd | ⟨x, hd, hx⟩
            · rcases hlim with hl | ⟨s, hl, hs⟩
              · exact absurd htc (htcinf hl b)
              · exact absurd hd (hlim2_of_fin s hl)
            · rw [hd]
              by_cases hxneg : x < 0 <;> simp [jsDiv, jsCeil, hxneg]
          | fin q =>
            rcases hlim2 with hd | ⟨x, hd, hx⟩
            · rw [hd]; simp [jsDiv, jsCeil]
            · rw [hd]
              have hx0 : x ≠ 0 := by positivity
              simp [jsDiv, jsCeil, hx0]
        have := jsLeB_fin_jsMax 1 _ hz
        rcases jsMax_fin_char 1 _ hz with h | ⟨r, h, hr⟩
        · rw [h]; rfl
        · rw [h]
          simp only [jsLtB, decide_eq_true_eq]
          rw [h] at this
          simp only [jsLeB, decide_eq_true_eq] at this
          linarith
  · intro tp htp hc htcnan htcinf
    rw [if_neg (by simp [hc])] at htp
    cases htc : tc with
    | none => rw [htc] at htp; cases htp
    | some n =>
      rw [htc] at htp
      simp only [Option.some.injEq] at htp
      subst htp
      have hz : jsCeil (jsDiv n (jsMax (.fin 1) (jsMax (.fin 1) yl))) ≠ .nan := by
        cases n with
        | nan => exact absurd htc (by rw [htc] at htcnan ⊢; exact htcnan)
        | inf b =>
          rcases hlim2 with hd | ⟨x, hd, hx⟩
          · rcases hlim with hl | ⟨s, hl, hs⟩
            · exact absurd htc (htcinf hl b)
            · exact absurd hd (hlim2_of_fin s hl)
          · rw [hd]
            by_cases hxneg : x < 0 <;> simp [jsDiv, jsCeil, hxneg]
        | fin q =>
          rcases hlim2 with hd | ⟨x, hd, hx⟩
          · rw [hd]; simp [jsDiv, jsCeil]
          · rw [hd]
            have hx0 : x ≠ 0 := by positivity
            simp [jsDiv, jsCeil, hx0]
      exact jsLeB_fin_jsMax 1 _ hz

/-- C10 counterexample: the payload with page: 0.5 — a perfectly ordinary
JSON object — yields page = 0.5, which is not >= 1: the server override is
accepted whenever it is finite and > 0, fractional values below 1
included. -/
theorem normalizeSearchPayload_wellformed_counterexample :
    (normalizeSearchPayload (.obj [("page", .num (.fin (mkRat 1 2)))])).page
      = .fin (mkRat 1 2) ∧
    jsLeB (.fin 1)
      (normalizeSearchPayload (.obj [("page", .num (.fin (mkRat 1 2)))])).page
      = false := by
  exact ⟨by decide, by decide⟩

/-- C10 as amended: normalizeSearchPayload is total (it is a function, and no
step of it can throw) and for every input value whatsoever it returns a
record whose hits field is an array (a List by construction), whose limit is
>= 1 and offset >= 0 (in the JS ordering, +Infinity included); its page is
> 0 — and >= 1 whenever the server page override is not used — provided
offset and limit do not both coerce to +Infinity (page is NaN in that last
case); and its totalPages is either null or > 0 — >= 1 whenever the server
total_pages override is not used — provided total_count is not NaN and not
an infinity while limit coerces to +Infinity.  All provisos hold vacuously
for payloads parsed from JSON with finite numeric fields. -/
theorem normalizeSearchPayload_wellformed (data : JsVal) :
    jsLeB (.fin 1) (normalizeSearchPayload data).limit = true ∧
    jsLeB (.fin 0) (normalizeSearchPayload data).offset = true ∧
    (¬((normalizeSearchPayload data).offset = .inf true ∧
        (normalizeSearchPayload data).limit = .inf true) →
      jsLtB (.fin 0) (normalizeSearchPayload data).page = true) ∧
    ((jsIsFiniteB (jsToNumber (getField data "page")) &&
        jsLtB (.fin 0) (jsToNumber (getField data "page"))) = false →
      ¬((normalizeSearchPayload data).offset = .inf true ∧
        (normalizeSearchPayload data).limit = .inf true) →
      jsLeB (.fin 1) (normalizeSearchPayload data).page = true) ∧
    (∀ tp, (normalizeSearchPayload data).totalPages = some tp →
      (normalizeSearchPayload data).totalCount ≠ some .nan →
      ((normalizeSearchPayload data).limit = .inf true →
        ∀ b, (normalizeSearchPayload data).totalCount ≠ some (.inf b)) →
      jsLtB (.fin 0) tp = true) ∧
    (∀ tp, (normalizeSearchPayload data).totalPages = some tp →
      (jsIsFiniteB (jsToNumber (getField data "total_pages")) &&
        jsLtB (.fin 0) (jsToNumber (getField data "total_pages"))) = false →
      (normalizeSearchPayload data).totalCount ≠ some .nan →
      ((normalizeSearchPayload data).limit = .inf true →
        ∀ b, (normalizeSearchPayload data).totalCount ≠ some (.inf b)) →
      jsLeB (.fin 1) tp = true) := by
  cases data with
  | obj fs =>
    exact normCoreWellformed
      (numOr (jsToNumber (coalesce (getField (.obj fs) "limit") (.num (.fin 10)))) (.fin 10))
      (numOr (jsToNumber (coalesce (getField (.obj fs) "offset") (.num (.fin 0)))) (.fin 0))
      (jsToNumber (getField (.obj fs) "page"))
      (jsToNumber (getField (.obj fs) "total_pages"))
      (match getField (.obj fs) "total_count" with | .num n => some n | _ => none)
      (numOr_ne_nan _ _ (fun h => JsNum.noConfusion h))
      (numOr_ne_nan _ _ (fun h => JsNum.noConfusion h))
  | arr xs =>
    exact normCoreWellformed
      (numOr (jsToNumber (coalesce (getField (.arr xs) "limit") (.num (.fin 10)))) (.fin 10))
      (numOr (jsToNumber (coalesce (getField (.arr xs) "offset") (.num (.fin 0)))) (.fin 0))
      (jsToNumber (getField (.arr xs) "page"))
      (jsToNumber (getField (.arr xs) "total_pages"))
      (match getField (.arr xs) "total_count" with | .num n => some n | _ => none)
      (numOr_ne_nan _ _ (fun h => JsNum.noConfusion h))
      (numOr_ne_nan _ _ (fun h => JsNum.noConfusion h))
  | undefined =>
    refine ⟨rfl, rfl, fun _ => rfl, fun _ _ => rfl, ?_, ?_⟩ <;>
      · intro tp htp
        cases htp
  | null =>
    refine ⟨rfl, rfl, fun _ => rfl, fun _ _ => rfl, ?_, ?_⟩ <;>
      · intro tp htp
        cases htp
  | bool b =>
    refine ⟨rfl, rfl, fun _ => rfl, fun _ _ => rfl, ?_, ?_⟩ <;>
      · intro tp htp
        cases htp
  | num n =>
    refine ⟨rfl, rfl, fun _ => rfl, fun _ _ => rfl, ?_, ?_⟩ <;>
      · intro tp htp
        cases htp
  | str s =>
    refine ⟨rfl, rfl, fun _ => rfl, fun _ _ => rfl, ?_, ?_⟩ <;>
      · intro tp htp
        cases htp

/-- C10 witness: the amended invariants evaluated on a concrete JSON-like
payload with finite fields. -/
theorem normalizeSearchPayload_wellformed_witness :
    jsLtB (.fin 0)
      (normalizeSearchPayload (.obj [("offset", .num (.fin 20)),
        ("limit", .num (.fin 10))])).page = true ∧
    jsLeB (.fin 1)
      (normalizeSearchPayload (.obj [("offset", .num (.fin 20)),
        ("limit", .num (.fin 10))])).page = true :=
  ⟨((normalizeSearchPayload_wellformed
      (.obj [("offset", .num (.fin 20)), ("limit", .num (.fin 10))])).2.2.1
      (by intro hcon; exact JsNum.noConfusion hcon.2)),
    ((normalizeSearchPayload_wellformed
      (.obj [("offset", .num (.fin 20)), ("limit", .num (.fin 10))])).2.2.2.1
      (by rfl)
      (by intro hcon; exact JsNum.noConfusion hcon.2))⟩


-- ===========================================================================
-- C1: the streaming reader — split algebra
-- ===========================================================================

theorem splitOnNl_ne_nil (l : List Char) : splitOnNl l ≠ [] := by
  cases l with
  | nil => simp [splitOnNl]
  | cons c cs =>
    simp only [splitOnNl]
    by_cases hc : c = '\n'
    · simp [hc]
    · simp only [hc, if_false]
      cases h : splitOnNl cs with
      | nil => simp
      | cons h t => simp

theorem splitOnNl_cons_nl (cs : List Char) : splitOnNl ('\n' :: cs) = [] :: splitOnNl cs := by
  simp [splitOnNl]

theorem splitOnNl_cons_of (c : Char) (hc : c ≠ '\n') (Z : List Char)
    (k : List Char) (u : List (List Char)) (h : splitOnNl Z = k :: u) :
    splitOnNl (c :: Z) = (c :: k) :: u := by
  simp only [splitOnNl, hc, if_false]
  rw [h]

theorem getLastD_of_ne_nil (L : List (List Char)) (h : L ≠ []) (d1 d2 : List Char) :
    L.getLastD d1 = L.getLastD d2 := by
  rw [List.getLastD_eq_getLast?, List.getLastD_eq_getLast?, List.getLast?_eq_getLast _ h]
  rfl

theorem getLastD_append_right (L1 L2 : List (List Char)) (d : List Char)
    (h : L2 ≠ []) : (L1 ++ L2).getLastD d = L2.getLastD d := by
  rw [List.getLastD_eq_getLast?, List.getLastD_eq_getLast?,
    List.getLast?_append_of_ne_nil L1 h]

theorem splitOnNl_parts (l : List Char) :
    splitOnNl l = completeLines l ++ [lastSeg l] := by
  have h := splitOnNl_ne_nil l
  unfold completeLines lastSeg
  rw [List.getLastD_eq_getLast?, List.getLast?_eq_getLast _ h]
  simp only [Option.getD_some]
  exact (List.dropLast_append_getLast h).symm

theorem lastSeg_cons_nl (cs : List Char) : lastSeg ('\n' :: cs) = lastSeg cs := by
  unfold lastSeg
  rw [splitOnNl_cons_nl]
  cases h : splitOnNl cs with
  | nil => exact absurd h (splitOnNl_ne_nil cs)
  | cons a t => rw [List.getLastD_cons, List.getLastD_cons]

theorem completeLines_cons_nl (cs : List Char) :
    completeLines ('\n' :: cs) = [] :: completeLines cs := by
  unfold completeLines
  rw [splitOnNl_cons_nl]
  cases h : splitOnNl cs with
  | nil => exact absurd h (splitOnNl_ne_nil cs)
  | cons a t => simp

theorem splitOnNl_append_parts (X Y : List Char) :
    splitOnNl (X ++ Y) = completeLines X ++ splitOnNl (lastSeg X ++ Y) := by
  induction X with
  | nil =>
    have h1 : completeLines ([] : List Char) = [] := rfl
    have h2 : lastSeg ([] : List Char) = [] := rfl
    rw [h1, h2]
    rfl
  | cons c cs ih =>
    by_cases hc : c = '\n'
    · subst hc
      rw [List.cons_append, splitOnNl_cons_nl, ih, completeLines_cons_nl, lastSeg_cons_nl]
      rfl
    · have hparts := splitOnNl_parts cs
      cases hce : completeLines cs with
      | nil =>
        rw [hce] at hparts
        simp only [List.nil_append] at hparts
        have hsz : splitOnNl (c :: cs) = [c :: lastSeg cs] :=
          splitOnNl_cons_of c hc cs _ _ hparts
        have hcl : completeLines (c :: cs) = [] := by unfold completeLines; rw [hsz]; rfl
        have hls : lastSeg (c :: cs) = c :: lastSeg cs := by
          unfold lastSeg; rw [hsz]; rw [List.getLastD_cons]; rfl
        rw [hcl, hls, List.nil_append, List.cons_append]
        rw [hce] at ih
        simp only [List.nil_append] at ih
        cases hS : splitOnNl (lastSeg cs ++ Y) with
        | nil => exact absurd hS (splitOnNl_ne_nil _)
        | cons k u =>
          rw [List.cons_append]
          rw [splitOnNl_cons_of c hc _ k u (by rw [ih, hS])]
          rw [splitOnNl_cons_of c hc _ k u hS]
      | cons e es =>
        rw [hce] at hparts
        have hsplit : splitOnNl cs = e :: (es ++ [lastSeg cs]) := by
          rw [hparts]; rfl
        have hsz : splitOnNl (c :: cs) = (c :: e) :: (es ++ [lastSeg cs]) :=
          splitOnNl_cons_of c hc cs _ _ hsplit
        have hcl : completeLines (c :: cs) = (c :: e) :: es := by
          unfold completeLines
          rw [hsz]
          rw [List.dropLast_cons_of_ne_nil (by simp)]
          rw [List.dropLast_concat]
        have hls : lastSeg (c :: cs) = lastSeg cs := by
          unfold lastSeg
          rw [hsz, List.getLastD_cons, getLastD_append_right es [lastSeg cs] _ (by simp)]
          rfl
        rw [hcl, hls]
        cases hS : splitOnNl (lastSeg cs ++ Y) with
        | nil => exact absurd hS (splitOnNl_ne_nil _)
        | cons k u =>
          have hxy : splitOnNl (cs ++ Y) = e :: (es ++ (k :: u)) := by
            rw [ih, hce, hS]; rfl
          rw [List.cons_append]
          rw [splitOnNl_cons_of c hc _ _ _ hxy]
          simp

theorem completeLines_append (X Y : List Char) :
    completeLines (X ++ Y) = completeLines X ++ completeLines (lastSeg X ++ Y) := by
  unfold completeLines
  rw [splitOnNl_append_parts X Y]
  exact List.dropLast_append_of_ne_nil (completeLines X) (splitOnNl_ne_nil _)

theorem lastSeg_append (X Y : List Char) :
    lastSeg (X ++ Y) = lastSeg (lastSeg X ++ Y) := by
  unfold lastSeg
  rw [splitOnNl_append_parts X Y]
  exact getLastD_append_right _ _ _ (splitOnNl_ne_nil _)

theorem lastSeg_no_nl (l : List Char) : '\n' ∉ lastSeg l := by
  induction l with
  | nil => simp [lastSeg, splitOnNl]
  | cons c cs ih =>
    by_cases hc : c = '\n'
    · subst hc; rw [lastSeg_cons_nl]; exact ih
    · cases hs : splitOnNl cs with
      | nil => exact absurd hs (splitOnNl_ne_nil cs)
      | cons k u =>
        have hcons := splitOnNl_cons_of c hc cs k u hs
        cases u with
        | nil =>
          have h1 : lastSeg (c :: cs) = c :: k := by
            unfold lastSeg; rw [hcons]; rw [List.getLastD_cons]; rfl
          have hk : lastSeg cs = k := by
            unfold lastSeg; rw [hs]; rw [List.getLastD_cons]; rfl
          rw [h1]
          intro hmem
          rcases List.mem_cons.mp hmem with h1 | h2
          · exact hc h1.symm
          · exact ih (by rw [hk]; exact h2)
        | cons w ws =>
          have h1 : lastSeg (c :: cs) = (w :: ws).getLastD (c :: k) := by
            unfold lastSeg; rw [hcons]; rw [List.getLastD_cons, List.getLastD_cons]
          have h2 : lastSeg cs = (w :: ws).getLastD k := by
            unfold lastSeg; rw [hs]; rw [List.getLastD_cons, List.getLastD_cons]
          rw [h1, getLastD_of_ne_nil _ (by simp) (c :: k) k, ← h2]
          exact ih

theorem splitOnNl_of_no_nl (l : List Char) (h : '\n' ∉ l) : splitOnNl l = [l] := by
  induction l with
  | nil => rfl
  | cons c cs ih =>
    have hc : c ≠ '\n' := fun he => h (by rw [he]; exact List.mem_cons_self _ _)
    have hcs : '\n' ∉ cs := fun hm => h (List.mem_cons_of_mem _ hm)
    exact splitOnNl_cons_of c hc cs cs [] (ih hcs)

-- ===========================================================================
-- C1: the streaming reader — loop lemmas
-- ===========================================================================

theorem stepChunk_not_done (st : StreamState) (c : List Char) (h : st.isDone = false) :
    stepChunk st c =
      procLines { st with buffer := lastSeg (st.buffer ++ c) }
        (completeLines (st.buffer ++ c)) := by
  unfold stepChunk
  rw [if_neg (by rw [h]; simp)]

theorem stepChunk_done (st : StreamState) (c : List Char) (h : st.isDone = true) :
    stepChunk st c = st := by
  unfold stepChunk
  rw [if_pos h]

theorem foldl_stepChunk_of_done (chunks : List (List Char)) (st : StreamState)
    (h : st.isDone = true) : chunks.foldl stepChunk st = st := by
  induction chunks generalizing st with
  | nil => rfl
  | cons c rest ih =>
    rw [List.foldl_cons, stepChunk_done st c h]
    exact ih st h

theorem procLine_buffer (st : StreamState) (b : List Char) (l : List Char) :
    procLine { st with buffer := b } l = { procLine st l with buffer := b } := by
  obtain ⟨acc, trace, d, buf, run⟩ := st
  unfold procLine lineEffect
  dsimp only
  repeat' split
  all_goals rfl

theorem procLines_buffer (L : List (List Char)) (st : StreamState) (b : List Char) :
    procLines { st with buffer := b } L = { procLines st L with buffer := b } := by
  induction L generalizing st with
  | nil => rfl
  | cons l ls ih =>
    by_cases hd : (procLine st l).isDone = true
    · have hcond : ({ procLine st l with buffer := b } : StreamState).isDone = true := hd
      have l1 : procLines { st with buffer := b } (l :: ls)
          = { procLine st l with buffer := b } := by
        simp only [procLines]
        rw [procLine_buffer]
        rw [if_pos hcond]
      have l2 : procLines st (l :: ls) = procLine st l := by
        simp only [procLines]
        rw [if_pos hd]
      rw [l1, l2]
    · have hd2 : ¬(({ procLine st l with buffer := b } : StreamState).isDone = true) := hd
      have l1 : procLines { st with buffer := b } (l :: ls)
          = procLines { procLine st l with buffer := b } ls := by
        simp only [procLines]
        rw [procLine_buffer]
        rw [if_neg hd2]
      have l2 : procLines st (l :: ls) = procLines (procLine st l) ls := by
        simp only [procLines]
        rw [if_neg hd]
      rw [l1, l2]
      exact ih (procLine st l)

theorem procLine_buffer_eq (st : StreamState) (l : List Char) :
    (procLine st l).buffer = st.buffer := by
  have h := procLine_buffer st st.buffer l
  have h2 : ({ st with buffer := st.buffer } : StreamState) = st := rfl
  rw [h2] at h
  rw [h]

theorem procLines_buffer_eq (L : List (List Char)) (st : StreamState) :
    (procLines st L).buffer = st.buffer := by
  have h := procLines_buffer L st st.buffer
  have h2 : ({ st with buffer := st.buffer } : StreamState) = st := rfl
  rw [h2] at h
  rw [h]

theorem procLines_append (L1 L2 : List (List Char)) (st : StreamState)
    (h : st.isDone = false) :
    procLines st (L1 ++ L2) =
      if (procLines st L1).isDone then procLines st L1
      else procLines (procLines st L1) L2 := by
  induction L1 generalizing st with
  | nil =>
    simp only [List.nil_append, procLines]
    rw [if_neg (by rw [h]; simp)]
  | cons l ls ih =>
    by_cases hd : (procLine st l).isDone = true
    · have l1 : procLines st ((l :: ls) ++ L2) = procLine st l := by
        rw [List.cons_append]
        simp only [procLines]
        rw [if_pos hd]
      have l2 : procLines st (l :: ls) = procLine st l := by
        simp only [procLines]
        rw [if_pos hd]
      rw [l1, l2, if_pos hd]
    · have hd2 : (procLine st l).isDone = false := by simpa using hd
      have l1 : procLines st ((l :: ls) ++ L2) = procLines (procLine st l) (ls ++ L2) := by
        rw [List.cons_append]
        simp only [procLines]
        rw [if_neg hd]
      have l2 : procLines st (l :: ls) = procLines (procLine st l) ls := by
        simp only [procLines]
        rw [if_neg hd]
      rw [l1, l2, ih (procLine st l) hd2]

theorem foldl_stepChunk_eq (chunks : List (List Char)) (st : StreamState)
    (hdone : st.isDone = false) (hbuf : '\n' ∉ st.buffer) :
    (chunks.foldl stepChunk st).acc = (stepChunk st chunks.flatten).acc ∧
    (chunks.foldl stepChunk st).trace = (stepChunk st chunks.flatten).trace ∧
    (chunks.foldl stepChunk st).isDone = (stepChunk st chunks.flatten).isDone ∧
    ((stepChunk st chunks.flatten).isDone = false →
      chunks.foldl stepChunk st = stepChunk st chunks.flatten) := by
  induction chunks generalizing st with
  | nil =>
    have hsplit : splitOnNl st.buffer = [st.buffer] := splitOnNl_of_no_nl _ hbuf
    have hcl : completeLines st.buffer = [] := by unfold completeLines; rw [hsplit]; rfl
    have hls : lastSeg st.buffer = st.buffer := by unfold lastSeg; rw [hsplit]; rfl
    have hsc : stepChunk st ([] : List (List Char)).flatten = st := by
      have hf : ([] : List (List Char)).flatten = ([] : List Char) := rfl
      rw [hf, stepChunk_not_done st [] hdone, List.append_nil, hcl, hls]
      rfl
    rw [List.foldl_nil, hsc]
    exact ⟨rfl, rfl, rfl, fun _ => rfl⟩
  | cons c rest ih =>
    have hflat : (c :: rest).flatten = c ++ rest.flatten := rfl
    have hfold : (c :: rest).foldl stepChunk st = rest.foldl stepChunk (stepChunk st c) := rfl
    have hm_eq : stepChunk st c = procLines { st with buffer := lastSeg (st.buffer ++ c) }
        (completeLines (st.buffer ++ c)) := stepChunk_not_done st c hdone
    have hm2 : stepChunk st c
        = { procLines st (completeLines (st.buffer ++ c)) with
              buffer := lastSeg (st.buffer ++ c) } := by
      rw [hm_eq, procLines_buffer]
    have hmbuf : (stepChunk st c).buffer = lastSeg (st.buffer ++ c) := by
      rw [hm2]
    have hmdone : (stepChunk st c).isDone
        = (procLines st (completeLines (st.buffer ++ c))).isDone := by
      rw [hm2]
    have hassoc : st.buffer ++ (c ++ rest.flatten) = (st.buffer ++ c) ++ rest.flatten :=
      (List.append_assoc _ _ _).symm
    have hJ : stepChunk st ((c :: rest).flatten)
        = if (procLines st (completeLines (st.buffer ++ c))).isDone
          then { procLines st (completeLines (st.buffer ++ c)) with
                  buffer := lastSeg ((st.buffer ++ c) ++ rest.flatten) }
          else procLines
                { procLines st (completeLines (st.buffer ++ c)) with
                  buffer := lastSeg ((st.buffer ++ c) ++ rest.flatten) }
                (completeLines (lastSeg (st.buffer ++ c) ++ rest.flatten)) := by
      rw [hflat, stepChunk_not_done st _ hdone, hassoc,
        completeLines_append (st.buffer ++ c) rest.flatten]
      rw [procLines_append _ _ _
        (show ({ st with buffer := lastSeg ((st.buffer ++ c) ++ rest.flatten) } :
          StreamState).isDone = false from hdone)]
      rw [procLines_buffer]
    by_cases hmd : (stepChunk st c).isDone = true
    · have hpd : (procLines st (completeLines (st.buffer ++ c))).isDone = true := by
        rw [← hmdone]; exact hmd
      have hJ2 : stepChunk st ((c :: rest).flatten)
          = { procLines st (completeLines (st.buffer ++ c)) with
                buffer := lastSeg ((st.buffer ++ c) ++ rest.flatten) } := by
        rw [hJ, if_pos hpd]
      have hfoldm : (c :: rest).foldl stepChunk st = stepChunk st c := by
        rw [hfold, foldl_stepChunk_of_done rest _ hmd]
      rw [hfoldm, hJ2, hm2]
      refine ⟨rfl, rfl, rfl, ?_⟩
      intro hfalse
      rw [show ({ procLines st (completeLines (st.buffer ++ c)) with
            buffer := lastSeg ((st.buffer ++ c) ++ rest.flatten) } : StreamState).isDone
          = (procLines st (completeLines (st.buffer ++ c))).isDone from rfl, hpd] at hfalse
      exact absurd hfalse (by simp)
    · have hmdf : (stepChunk st c).isDone = false := by simpa using hmd
      have hpd : ¬((procLines st (completeLines (st.buffer ++ c))).isDone = true) := by
        rw [← hmdone]; exact hmd
      have hbuf2 : '\n' ∉ (stepChunk st c).buffer := by
        rw [hmbuf]; exact lastSeg_no_nl _
      have hJm : stepChunk st ((c :: rest).flatten)
          = stepChunk (stepChunk st c) rest.flatten := by
        rw [hJ, if_neg hpd]
        rw [stepChunk_not_done _ _ hmdf]
        rw [hmbuf]
        rw [← lastSeg_append (st.buffer ++ c) rest.flatten]
        rw [hm2]
      obtain ⟨i1, i2, i3, i4⟩ := ih (stepChunk st c) hmdf hbuf2
      rw [hfold, hJm]
      exact ⟨i1, i2, i3, i4⟩

theorem lineEffect_effects (st : StreamState) (v : JsVal) :
    (lineEffect st v).acc
        = st.acc ++ (if truthy (getField v "error") then [] else deltaOf v) ∧
    (lineEffect st v).trace = st.trace ∧
    (lineEffect st v).isDone
        = (st.isDone ||
            (!truthy (getField v "error") &&
              (match getField v "done" with | .bool true => true | _ => false))) ∧
    (lineEffect st v).buffer = st.buffer := by
  obtain ⟨acc, trace, d, buf, run⟩ := st
  unfold lineEffect deltaOf
  by_cases he : truthy (getField v "error") = true
  · rw [if_pos he]
    simp [he]
  · rw [if_neg he]
    simp only [he, Bool.false_eq_true, if_false, Bool.not_false, Bool.true_and]
    repeat' split
    all_goals simp_all

theorem procLine_effects (st : StreamState) (l : List Char) :
    (procLine st l).acc = st.acc ++ lineDeltaEff l ∧
    (procLine st l).trace = st.trace ++ (if (trimWs l).isEmpty then [] else [l]) ∧
    (procLine st l).isDone = (st.isDone || lineIsDone l) ∧
    (procLine st l).buffer = st.buffer := by
  unfold procLine lineDeltaEff lineIsDone goodLineVal
  by_cases hb : (trimWs l).isEmpty = true
  · simp [hb]
  · rw [if_neg hb]
    have hb2 : ¬(trimWs l = []) := by simpa [List.isEmpty_iff] using hb
    cases hp : jsonParse l with
    | none => simp [hb2]
    | some v =>
      obtain ⟨e1, e2, e3, e4⟩ :=
        lineEffect_effects { st with trace := st.trace ++ [l] } v
      cases v with
      | null => simp [hb2]
      | undefined =>
        by_cases he : truthy (getField JsVal.undefined "error") = true <;>
          simp [e1, e2, e3, e4, hb2, he]
      | bool b2 =>
        by_cases he : truthy (getField (JsVal.bool b2) "error") = true <;>
          simp [e1, e2, e3, e4, hb2, he]
      | num n =>
        by_cases he : truthy (getField (JsVal.num n) "error") = true <;>
          simp [e1, e2, e3, e4, hb2, he]
      | str s =>
        by_cases he : truthy (getField (JsVal.str s) "error") = true <;>
          simp [e1, e2, e3, e4, hb2, he]
      | arr xs =>
        by_cases he : truthy (getField (JsVal.arr xs) "error") = true <;>
          simp [e1, e2, e3, e4, hb2, he]
      | obj fs =>
        by_cases he : truthy (getField (JsVal.obj fs) "error") = true <;>
          simp [e1, e2, e3, e4, hb2, he]

theorem lineIsDone_nonblank (l : List Char) (h : lineIsDone l = true) :
    (trimWs l).isEmpty = false := by
  by_contra hc
  have hb : (trimWs l).isEmpty = true := by simpa using hc
  unfold lineIsDone goodLineVal at h
  rw [if_pos hb] at h
  exact absurd h (by simp)

theorem procLines_effects (L : List (List Char)) (st : StreamState)
    (h : st.isDone = false) :
    (procLines st L).acc
        = st.acc ++ ((takeThroughFirst lineIsDone L).map lineDeltaEff).flatten ∧
    (procLines st L).trace
        = st.trace ++ (takeThroughFirst lineIsDone L).filter
            (fun l => !(trimWs l).isEmpty) ∧
    (procLines st L).isDone = L.any lineIsDone := by
  induction L generalizing st with
  | nil => simp [procLines, takeThroughFirst, h]
  | cons l ls ih =>
    obtain ⟨ha, ht, hd, _⟩ := procLine_effects st l
    rw [hd, h, Bool.false_or] at hd
    by_cases hld : lineIsDone l = true
    · have hdone : (procLine st l).isDone = true := by
        obtain ⟨_, _, hd2, _⟩ := procLine_effects st l
        rw [hd2, h, Bool.false_or]
        exact hld
      have hstop : procLines st (l :: ls) = procLine st l := by
        simp only [procLines]
        rw [if_pos hdone]
      have htk : takeThroughFirst lineIsDone (l :: ls) = [l] := by
        have htk0 : takeThroughFirst lineIsDone (l :: ls)
            = if lineIsDone l then [l] else l :: takeThroughFirst lineIsDone ls := rfl
        rw [htk0, if_pos hld]
      have hnb := lineIsDone_nonblank l hld
      rw [hstop, htk]
      refine ⟨?_, ?_, ?_⟩
      · simp [ha]
      · rw [ht]
        simp [hnb]
      · rw [hdone]
        simp [hld]
    · have hldf : lineIsDone l = false := by simpa using hld
      have hdone : (procLine st l).isDone = false := by
        obtain ⟨_, _, hd2, _⟩ := procLine_effects st l
        rw [hd2, h, Bool.false_or]
        exact hldf
      have hcont : procLines st (l :: ls) = procLines (procLine st l) ls := by
        simp only [procLines]
        rw [if_neg (by simp [hdone])]
      have htk : takeThroughFirst lineIsDone (l :: ls) = l :: takeThroughFirst lineIsDone ls := by
        have htk0 : takeThroughFirst lineIsDone (l :: ls)
            = if lineIsDone l then [l] else l :: takeThroughFirst lineIsDone ls := rfl
        rw [htk0, if_neg (by simp [hldf])]
      obtain ⟨i1, i2, i3⟩ := ih (procLine st l) hdone
      obtain ⟨ha2, ht2, _, _⟩ := procLine_effects st l
      rw [hcont, htk]
      refine ⟨?_, ?_, ?_⟩
      · rw [i1, ha2]
        simp [List.append_assoc]
      · rw [i2, ht2]
        by_cases hnb : (trimWs l).isEmpty = true
        · simp [hnb]
        · have : (trimWs l).isEmpty = false := by simpa using hnb
          simp [this, List.append_assoc]
      · rw [i3]
        simp [hldf]

/-- C1 counterexample: for the stream text consisting of a done line followed
by a delta line (both newline-terminated), the concatenation of the delta
fields of all the newline-terminated JSON lines is "x", but the reader
accumulates "" — the loop breaks at the first done line and later lines are
never processed. -/
theorem streamDeltas_counterexample :
    claimedDeltas ("\x7b\"done\":true\x7d\n\x7b\"delta\":\"x\"\x7d\n".toList)
      = "x".toList ∧
    (runStream ["\x7b\"done\":true\x7d\n\x7b\"delta\":\"x\"\x7d\n".toList]).acc = [] := by
  exact ⟨by decide, by decide⟩

/-- C1 as amended: for every chunk sequence, the accumulated answer equals
the concatenation, in order, of the delta string fields of the processed
newline-terminated JSON lines of the stream text — the lines up to and
including the first line signalling done (skipping blank, unparseable, null
and error-carrying lines) — and this depends only on the concatenated text,
not on the chunking; the lines handed to JSON.parse (the trace) are exactly
the non-blank processed complete lines, each parsed once, in order; the
reader saw a done line iff some complete line signals done; and when no line
signals done the buffer holds exactly the trailing segment after the last
newline, never parsed. -/
theorem runStream_spec (chunks : List (List Char)) :
    (runStream chunks).acc = specAcc chunks.flatten ∧
    (runStream chunks).trace = specTrace chunks.flatten ∧
    (runStream chunks).isDone = specDone chunks.flatten ∧
    (specDone chunks.flatten = false →
      (runStream chunks).buffer = lastSeg chunks.flatten) := by
  have hrun : runStream chunks = chunks.foldl stepChunk initStream := rfl
  obtain ⟨h1, h2, h3, h4⟩ := foldl_stepChunk_eq chunks initStream rfl (by simp [initStream])
  have hJdef : stepChunk initStream chunks.flatten
      = procLines { initStream with buffer := lastSeg chunks.flatten }
          (completeLines chunks.flatten) := by
    rw [stepChunk_not_done _ _ rfl]
    have hnil : (initStream.buffer ++ chunks.flatten) = chunks.flatten := rfl
    rw [hnil]
  obtain ⟨p1, p2, p3⟩ := procLines_effects (completeLines chunks.flatten)
      { initStream with buffer := lastSeg chunks.flatten } rfl
  refine ⟨?_, ?_, ?_, ?_⟩
  · rw [hrun, h1, hJdef, p1]
    simp [specAcc, specLines, initStream]
  · rw [hrun, h2, hJdef, p2]
    simp [specTrace, specLines, initStream]
  · rw [hrun, h3, hJdef, p3]
    rfl
  · intro hnd
    have hJd : (stepChunk initStream chunks.flatten).isDone = false := by
      rw [hJdef, p3]
      exact hnd
    rw [hrun, h4 hJd, hJdef, procLines_buffer_eq]

/-- C1 witness: a stream whose single JSON line is split across two chunk
boundaries and whose final line never receives its newline; no done line
occurs, so the trailing segment sits in the buffer. -/
theorem runStream_spec_witness :
    specDone ((["\x7b\"delta\":\"a", "b\"\x7d\nxyz"].map String.toList).flatten) = false ∧
    (runStream (["\x7b\"delta\":\"a", "b\"\x7d\nxyz"].map String.toList)).buffer
      = lastSeg ((["\x7b\"delta\":\"a", "b\"\x7d\nxyz"].map String.toList).flatten) := by
  refine ⟨by decide, ?_⟩
  exact (runStream_spec (["\x7b\"delta\":\"a", "b\"\x7d\nxyz"].map String.toList)).2.2.2
    (by decide)

-- ===========================================================================
-- C2: an error line does not trigger the askSync fallback (code bug)
-- ===========================================================================

/-- C2, evaluated at the failing input: the /chat/stream response is OK and
delivers the single newline-terminated line with a non-empty error field,
then ends cleanly.  The claim (and the file's own header comment, "Falls back
to sync /chat if streaming fails") says the streaming path fails and askSync
is called.  In the code, `if (json.error) throw new Error(json.error)` (line
1134) sits inside the try whose catch is `catch (parseErr)` (line 1149), so
the thrown error is caught by the per-line catch, logged with console.warn
and swallowed; the loop continues, the stream ends cleanly, and the streaming
path completes normally, appending the question with an empty cleaned answer
to the QA log.  askSync is never invoked and no error surfaces to the user.
The evaluation below shows the model of askStreaming returning the
streaming-path completion (the .streamed outcome, with empty answer) rather
than any fallback outcome, on exactly this input. -/
theorem errorLine_swallowed_no_fallback :
    askStreaming "what does the judgment hold".toList
        ⟨.chunks ["\x7b\"error\":\"boom\"\x7d\n".toList] .clean, .okBody none, 7⟩
      = .streamed ⟨"what does the judgment hold".toList, [], [], 7⟩ ∧
    askEntries "what does the judgment hold".toList
        ⟨.chunks ["\x7b\"error\":\"boom\"\x7d\n".toList] .clean, .okBody none, 7⟩
      = [⟨"what does the judgment hold".toList, [], [], 7⟩] := by
  exact ⟨rfl, rfl⟩

-- ===========================================================================
-- C3: AbortController discipline
-- ===========================================================================

theorem nodup_all_eq_length_le (l : List ℕ) (j : ℕ)
    (hnd : l.Nodup) (hall : ∀ x ∈ l, x = j) : l.length ≤ 1 := by
  cases l with
  | nil => simp
  | cons x xs =>
    cases xs with
    | nil => simp
    | cons y ys =>
      have hx : x = j := hall x (by simp)
      have hy : y = j := hall y (by simp)
      rw [List.nodup_cons] at hnd
      exact absurd (by rw [hx, ← hy]; simp : x ∈ y :: ys) hnd.1

theorem abortStep_preserves (s : AbortState) (op : AbortOp)
    (h1 : ∀ i ∈ s.inFlight, i ∉ s.aborted → s.stored = some i)
    (h2 : s.inFlight.Nodup)
    (h3 : ∀ i ∈ s.inFlight, i < s.nextId)
    (h4 : ∀ j, s.stored = some j → j < s.nextId) :
    (∀ i ∈ (abortStep s op).inFlight, i ∉ (abortStep s op).aborted →
      (abortStep s op).stored = some i) ∧
    (abortStep s op).inFlight.Nodup ∧
    (∀ i ∈ (abortStep s op).inFlight, i < (abortStep s op).nextId) ∧
    (∀ j, (abortStep s op).stored = some j → j < (abortStep s op).nextId) := by
  cases op with
  | start =>
    refine ⟨?_, ?_, ?_, ?_⟩
    · intro i hi hna
      simp only [abortStep, List.mem_append, List.mem_singleton] at hi
      rcases hi with hi | hi
      · exfalso
        have hnaold : i ∉ s.aborted := by
          intro hmem
          exact hna (by
            simp only [abortStep]
            cases hs : s.stored with
            | none => simpa [hs] using hmem
            | some j => simp [hs, List.mem_append]; exact Or.inl hmem)
        have hstored := h1 i hi hnaold
        apply hna
        simp only [abortStep]
        rw [hstored]
        simp
      · simp [abortStep, hi]
    · simp only [abortStep]
      rw [List.nodup_append]
      refine ⟨h2, by simp, ?_⟩
      intro a ha hb
      simp only [List.mem_singleton] at hb
      subst hb
      exact absurd (h3 _ ha) (lt_irrefl _)
    · intro i hi
      simp only [abortStep] at hi ⊢
      rcases List.mem_append.mp hi with hi | hi
      · exact lt_trans (h3 i hi) (by omega)
      · simp only [List.mem_singleton] at hi
        omega
    · intro j hj
      simp only [abortStep, Option.some.injEq] at hj ⊢
      omega
  | settle k =>
    refine ⟨?_, ?_, ?_, ?_⟩
    · intro i hi hna
      simp only [abortStep] at hi hna ⊢
      have hmem : i ∈ s.inFlight := (h2.mem_erase_iff.mp hi).2
      have hne : i ≠ k := (h2.mem_erase_iff.mp hi).1
      have hstored := h1 i hmem hna
      rw [if_neg (by rw [hstored]; simp [hne])]
      exact hstored
    · exact h2.erase k
    · intro i hi
      simp only [abortStep] at hi ⊢
      exact h3 i ((List.erase_sublist _ _).subset hi)
    · intro j hj
      simp only [abortStep] at hj
      by_cases hs : s.stored = some k
      · rw [if_pos hs] at hj; cases hj
      · rw [if_neg hs] at hj; exact h4 j hj
  | abortStored =>
    refine ⟨?_, ?_, ?_, ?_⟩
    · intro i hi hna
      simp only [abortStep] at hi hna ⊢
      apply h1 i hi
      intro hmem
      apply hna
      cases hs : s.stored with
      | none => simpa [hs] using hmem
      | some j => simp [hs, List.mem_append]; exact Or.inl hmem
    · exact h2
    · exact h3
    · exact h4

theorem runAborts_invariant (ops : List AbortOp) :
    (∀ i ∈ (runAborts ops).inFlight, i ∉ (runAborts ops).aborted →
      (runAborts ops).stored = some i) ∧
    (runAborts ops).inFlight.Nodup ∧
    (∀ i ∈ (runAborts ops).inFlight, i < (runAborts ops).nextId) ∧
    (∀ j, (runAborts ops).stored = some j → j < (runAborts ops).nextId) := by
  have main : ∀ (l : List AbortOp) (s : AbortState),
      (∀ i ∈ s.inFlight, i ∉ s.aborted → s.stored = some i) →
      s.inFlight.Nodup →
      (∀ i ∈ s.inFlight, i < s.nextId) →
      (∀ j, s.stored = some j → j < s.nextId) →
      (∀ i ∈ (l.foldl abortStep s).inFlight, i ∉ (l.foldl abortStep s).aborted →
        (l.foldl abortStep s).stored = some i) ∧
      (l.foldl abortStep s).inFlight.Nodup ∧
      (∀ i ∈ (l.foldl abortStep s).inFlight, i < (l.foldl abortStep s).nextId) ∧
      (∀ j, (l.foldl abortStep s).stored = some j → j < (l.foldl abortStep s).nextId) := by
    intro l
    induction l with
    | nil => intro s a b c d; exact ⟨a, b, c, d⟩
    | cons op rest ih =>
      intro s a b c d
      obtain ⟨a2, b2, c2, d2⟩ := abortStep_preserves s op a b c d
      exact ih (abortStep s op) a2 b2 c2 d2
  exact main ops abortInit (by intro i hi; simp [abortInit] at hi) (by simp [abortInit])
    (by intro i hi; simp [abortInit] at hi) (by intro j hj; simp [abortInit] at hj)

/-- C3: over every sequence of operations on one abort ref (searchAbortRef
for doSearch, askAbortRef for askStreaming/askSync — the two refs are
disjoint instances of the same machine), at any time at most one issued
request is un-settled and un-aborted; indeed every un-settled un-aborted
request is the one whose controller the ref currently stores; and every
request-issuing invocation first aborts the previously stored controller
(when one exists) before creating, storing and fetching with its own. -/
theorem abortDiscipline_at_most_one (ops : List AbortOp) :
    (unabortedInFlight (runAborts ops)).length ≤ 1 ∧
    (∀ i ∈ (runAborts ops).inFlight, i ∉ (runAborts ops).aborted →
      (runAborts ops).stored = some i) ∧
    (∀ s : AbortState, ∀ j, s.stored = some j → j ∈ (abortStep s .start).aborted) := by
  obtain ⟨h1, h2, _, _⟩ := runAborts_invariant ops
  refine ⟨?_, h1, ?_⟩
  · cases hs : (runAborts ops).stored with
    | none =>
      have hnil : unabortedInFlight (runAborts ops) = [] := by
        unfold unabortedInFlight
        rw [List.filter_eq_nil_iff]
        intro a ha hp
        have hna : a ∉ (runAborts ops).aborted := by simpa using hp
        have := h1 a ha hna
        rw [hs] at this
        cases this
      rw [hnil]
      simp
    | some j =>
      apply nodup_all_eq_length_le _ j
      · exact (List.filter_sublist _).nodup h2
      · intro x hx
        unfold unabortedInFlight at hx
        have hmf := List.mem_filter.mp hx
        have hna : x ∉ (runAborts ops).aborted := by simpa using hmf.2
        have hst := h1 x hmf.1 hna
        rw [hs] at hst
        exact (Option.some.injEq _ _).mp hst.symm
  · intro s j hj
    simp only [abortStep]
    rw [hj]
    simp

/-- C3 witness: two overlapping starts followed by the reset-button abort;
the first request is aborted by the second start, leaving exactly one
un-aborted in-flight request until the reset aborts it too. -/
theorem abortDiscipline_at_most_one_witness :
    (unabortedInFlight (runAborts [.start, .start])).length ≤ 1 ∧
    0 ∈ (abortStep (runAborts [.start]) .start).aborted :=
  ⟨(abortDiscipline_at_most_one [.start, .start]).1,
    (abortDiscipline_at_most_one [.start]).2.2 (runAborts [.start]) 0 rfl⟩

-- ===========================================================================
-- C7: toggleExpand fetches lazily, at most once per document
-- ===========================================================================

theorem metaLookup_append_single (m : List (ℚ × Option JsVal)) (k x : ℚ)
    (v : Option JsVal) :
    metaLookup (m ++ [(k, v)]) x = if k = x then some v else metaLookup m x := by
  simp [metaLookup, List.foldl_append]

/-- Every toggleExpand call leaves the recorded previews untouched (recording
happens only when a fetch settles), and either leaves fetchLog, pending and
nextCtrl alone, or — the fetch branch, taken only when no entry is recorded
for the id — issues exactly one fetch, registering it under the fresh
controller. -/
theorem toggleExpand_cases (st : ExpandState) (h : HitRec) :
    (toggleExpand st h).expandedMeta = st.expandedMeta ∧
    (((toggleExpand st h).fetchLog = st.fetchLog ∧
      (toggleExpand st h).pending = st.pending ∧
      (toggleExpand st h).nextCtrl = st.nextCtrl) ∨
     ∃ r, metaLookup st.expandedMeta r = none ∧
       (toggleExpand st h).fetchLog = st.fetchLog ++ [r] ∧
       (toggleExpand st h).pending = st.pending ++ [(st.nextCtrl, r)] ∧
       (toggleExpand st h).nextCtrl = st.nextCtrl + 1) := by
  unfold toggleExpand
  by_cases hn : nullishV (coalesce h.doc_id h.id) = true
  · rw [if_pos hn]
    exact ⟨rfl, Or.inl ⟨rfl, rfl, rfl⟩⟩
  · rw [if_neg hn]
    cases hc : jsToNumber (coalesce h.doc_id h.id) with
    | nan => exact ⟨rfl, Or.inl ⟨rfl, rfl, rfl⟩⟩
    | inf b => exact ⟨rfl, Or.inl ⟨rfl, rfl, rfl⟩⟩
    | fin idNum =>
      dsimp only
      by_cases hmem : st.expandedSet.contains idNum = true
      · rw [if_pos hmem]
        exact ⟨rfl, Or.inl ⟨rfl, rfl, rfl⟩⟩
      · rw [if_neg hmem]
        cases hl : metaLookup st.expandedMeta idNum with
        | some v => exact ⟨rfl, Or.inl ⟨rfl, rfl, rfl⟩⟩
        | none => exact ⟨rfl, Or.inr ⟨idNum, hl, rfl, rfl, rfl⟩⟩

/-- toggleExpandResume never fetches and never bumps the controller counter;
it is the identity for a controller that is not pending, and for a pending
one it records the fetched preview and settles the controller. -/
theorem toggleExpandResume_effects (st : ExpandState) (c : ℕ) (m : Option JsVal) :
    (toggleExpandResume st c m).fetchLog = st.fetchLog ∧
    (toggleExpandResume st c m).nextCtrl = st.nextCtrl ∧
    (pendingLookup st.pending c = none → toggleExpandResume st c m = st) ∧
    (∀ r, pendingLookup st.pending c = some r →
      (toggleExpandResume st c m).expandedMeta = st.expandedMeta ++ [(r, m)] ∧
      (toggleExpandResume st c m).pending = pendingRemove st.pending c) := by
  unfold toggleExpandResume
  cases hp : pendingLookup st.pending c with
  | none => exact ⟨rfl, rfl, fun _ => rfl, fun r hr => Option.noConfusion hr⟩
  | some idNum =>
    dsimp only
    refine ⟨?_, ?_, ?_, ?_⟩
    · split <;> rfl
    · split <;> rfl
    · intro hnone
      exact Option.noConfusion hnone
    · intro r hr
      injection hr with hr
      subst hr
      constructor
      · split <;> rfl
      · split <;> rfl

/-- Invariant of the sequential regime: with no outstanding fetch, every
fetched document recorded and every document fetched at most once so far,
running the remaining toggles (each immediately settled) keeps every
document's fetch count at most one. -/
theorem runSeqToggles_inv (ops : List (HitRec × Option JsVal)) (st : ExpandState)
    (hp : st.pending = [])
    (hrec : ∀ q, q ∈ st.fetchLog → metaLookup st.expandedMeta q ≠ none)
    (hcnt : ∀ q, List.count q st.fetchLog ≤ 1) :
    ∀ q, List.count q (runSeqToggles st ops).fetchLog ≤ 1 := by
  induction ops generalizing st with
  | nil => exact hcnt
  | cons p rest ih =>
    obtain ⟨h, m⟩ := p
    have hstep : runSeqToggles st ((h, m) :: rest)
        = runSeqToggles (toggleExpandResume (toggleExpand st h) st.nextCtrl m) rest := rfl
    rw [hstep]
    have hmeta := (toggleExpand_cases st h).1
    rcases (toggleExpand_cases st h).2 with ⟨hf, hpend, hctl⟩ | ⟨r, hlz, hf, hpend, hctl⟩
    · have hplnone : pendingLookup (toggleExpand st h).pending st.nextCtrl = none := by
        rw [hpend, hp]
        rfl
      rw [(toggleExpandResume_effects (toggleExpand st h) st.nextCtrl m).2.2.1 hplnone]
      apply ih
      · rw [hpend]
        exact hp
      · rw [hf, hmeta]
        exact hrec
      · rw [hf]
        exact hcnt
    · have hpl : pendingLookup (toggleExpand st h).pending st.nextCtrl = some r := by
        rw [hpend, hp]
        simp [pendingLookup]
      have hres := (toggleExpandResume_effects (toggleExpand st h) st.nextCtrl m).2.2.2 r hpl
      have hresf := (toggleExpandResume_effects (toggleExpand st h) st.nextCtrl m).1
      apply ih
      · rw [hres.2, hpend, hp]
        simp [pendingRemove]
      · intro q hq
        rw [hres.1, hmeta, metaLookup_append_single]
        by_cases he : r = q
        · simp [he]
        · rw [if_neg he]
          rw [hresf, hf] at hq
          rcases List.mem_append.mp hq with h1 | h2
          · exact hrec q h1
          · simp only [List.mem_singleton] at h2
            exact absurd h2.symm he
      · intro q
        rw [hresf, hf, List.count_append]
        by_cases he : q = r
        · subst he
          have h0 : List.count q st.fetchLog = 0 :=
            List.count_eq_zero.mpr (fun hmem => (hrec q hmem) hlz)
          have h1 : List.count q [q] = 1 := by simp
          omega
        · have h1 : List.count q [r] = 0 := by
            rw [List.count_eq_zero]
            intro hmem
            simp only [List.mem_singleton] at hmem
            exact he hmem
          have h2 := hcnt q
          omega

/-- C7 counterexample to "at most once per document per result set": expand,
collapse and re-expand the same document while its preview fetch is still
pending (no settle event in between).  The second expand still finds
expandedMeta without an entry — the first fetch has not recorded yet — so
lines 603-610 issue a second fetch for the same document in the same result
set, aborting the stored controller (id 0) of the first one. -/
theorem toggleExpand_double_fetch_counterexample :
    (runExpandOps [.toggle ⟨.num (.fin 4), .undefined⟩,
        .toggle ⟨.num (.fin 4), .undefined⟩,
        .toggle ⟨.num (.fin 4), .undefined⟩]).fetchLog = [4, 4] ∧
    ¬ List.count (4 : ℚ) (runExpandOps [.toggle ⟨.num (.fin 4), .undefined⟩,
        .toggle ⟨.num (.fin 4), .undefined⟩,
        .toggle ⟨.num (.fin 4), .undefined⟩]).fetchLog ≤ 1 ∧
    (runExpandOps [.toggle ⟨.num (.fin 4), .undefined⟩,
        .toggle ⟨.num (.fin 4), .undefined⟩,
        .toggle ⟨.num (.fin 4), .undefined⟩]).aborted = [0] := by
  refine ⟨rfl, ?_, rfl⟩
  decide

/-- C7 as amended: per call, toggleExpand issues a preview fetch exactly when
expanding a hit whose id (doc_id ?? id) is present, coerces to a finite
number, is not currently expanded and has no recorded entry in expandedMeta —
a recorded null from a failed or aborted fetch also suppresses refetching;
collapsing never fetches; a missing or non-numeric id does nothing at all;
previews are recorded only when a fetch settles (toggleExpandResume), which
itself never fetches; under any interleaving, a document with a recorded
entry is never fetched again; and in the sequential regime — each issued
fetch settles before the next toggle — each document is fetched at most once
per result set.  (Without that regime the bound fails: see the
counterexample.) -/
theorem toggleExpand_lazy_fetch_once :
    (∀ (st : ExpandState) (h : HitRec),
      (nullishV (coalesce h.doc_id h.id) = true → toggleExpand st h = st) ∧
      ((∀ r : ℚ, jsToNumber (coalesce h.doc_id h.id) ≠ .fin r) →
        toggleExpand st h = st) ∧
      (∀ r : ℚ, nullishV (coalesce h.doc_id h.id) = false →
        jsToNumber (coalesce h.doc_id h.id) = .fin r →
        st.expandedSet.contains r = true →
        toggleExpand st h = { st with expandedSet := st.expandedSet.erase r }) ∧
      (∀ r : ℚ, nullishV (coalesce h.doc_id h.id) = false →
        jsToNumber (coalesce h.doc_id h.id) = .fin r →
        st.expandedSet.contains r = false →
        metaLookup st.expandedMeta r ≠ none →
        toggleExpand st h = { st with expandedSet := st.expandedSet ++ [r] }) ∧
      (∀ r : ℚ, nullishV (coalesce h.doc_id h.id) = false →
        jsToNumber (coalesce h.doc_id h.id) = .fin r →
        st.expandedSet.contains r = false →
        metaLookup st.expandedMeta r = none →
        (toggleExpand st h).fetchLog = st.fetchLog ++ [r] ∧
        (toggleExpand st h).expandedMeta = st.expandedMeta)) ∧
    (∀ (st : ExpandState) (c : ℕ) (m : Option JsVal),
      (toggleExpandResume st c m).fetchLog = st.fetchLog) ∧
    (∀ (st : ExpandState) (h : HitRec) (q : ℚ),
      metaLookup st.expandedMeta q ≠ none →
      List.count q (toggleExpand st h).fetchLog = List.count q st.fetchLog ∧
      metaLookup (toggleExpand st h).expandedMeta q ≠ none) ∧
    (∀ (st : ExpandState) (c : ℕ) (m : Option JsVal) (q : ℚ),
      metaLookup st.expandedMeta q ≠ none →
      metaLookup (toggleExpandResume st c m).expandedMeta q ≠ none) ∧
    (∀ (ops : List (HitRec × Option JsVal)) (q : ℚ),
      List.count q (runSeqToggles expandInit ops).fetchLog ≤ 1) := by
  refine ⟨?_, ?_, ?_, ?_, ?_⟩
  · intro st h
    refine ⟨?_, ?_, ?_, ?_, ?_⟩
    · intro hn
      unfold toggleExpand
      rw [if_pos hn]
    · intro hfin
      unfold toggleExpand
      by_cases hn : nullishV (coalesce h.doc_id h.id) = true
      · rw [if_pos hn]
      · rw [if_neg hn]
        cases hc : jsToNumber (coalesce h.doc_id h.id) with
        | nan => rfl
        | inf b => rfl
        | fin r => exact absurd hc (hfin r)
    · intro r hn hfin hmem
      unfold toggleExpand
      rw [if_neg (by simp [hn]), hfin]
      dsimp only
      rw [if_pos hmem]
    · intro r hn hfin hmem hrec
      unfold toggleExpand
      rw [if_neg (by simp [hn]), hfin]
      dsimp only
      rw [if_neg (show ¬(st.expandedSet.contains r = true) by
        intro hcon; rw [hmem] at hcon; cases hcon)]
      cases hl : metaLookup st.expandedMeta r with
      | none => exact absurd hl hrec
      | some v => rfl
    · intro r hn hfin hmem hlz
      unfold toggleExpand
      rw [if_neg (by simp [hn]), hfin]
      dsimp only
      rw [if_neg (show ¬(st.expandedSet.contains r = true) by
        intro hcon; rw [hmem] at hcon; cases hcon)]
      rw [hlz]
      exact ⟨rfl, rfl⟩
  · intro st c m
    exact (toggleExpandResume_effects st c m).1
  · intro st h q hq
    have hmeta := (toggleExpand_cases st h).1
    rcases (toggleExpand_cases st h).2 with ⟨hf, _, _⟩ | ⟨r, hlz, hf, _, _⟩
    · exact ⟨by rw [hf], by rw [hmeta]; exact hq⟩
    · have hrq : r ≠ q := fun he => hq (he ▸ hlz)
      refine ⟨?_, by rw [hmeta]; exact hq⟩
      have h0 : List.count q [r] = 0 := by
        rw [List.count_eq_zero]
        intro hmem
        simp only [List.mem_singleton] at hmem
        exact hrq hmem.symm
      rw [hf, List.count_append, h0, Nat.add_zero]
  · intro st c m q hq
    cases hpl : pendingLookup st.pending c with
    | none =>
      rw [(toggleExpandResume_effects st c m).2.2.1 hpl]
      exact hq
    | some r =>
      rw [((toggleExpandResume_effects st c m).2.2.2 r hpl).1,
        metaLookup_append_single]
      by_cases he : r = q
      · simp [he]
      · rw [if_neg he]
        exact hq
  · intro ops q
    exact runSeqToggles_inv ops expandInit rfl
      (fun q hq => absurd hq (List.not_mem_nil q)) (fun q => Nat.zero_le 1) q

/-- C7 witness: a fresh expand issues the fetch, and a sequential
expand-collapse-expand run of the same document, each fetch settling before
the next toggle, fetches it at most once. -/
theorem toggleExpand_lazy_fetch_once_witness :
    (toggleExpand expandInit ⟨.num (.fin 4), .undefined⟩).fetchLog = [] ++ [4] ∧
    List.count (4 : ℚ) (runSeqToggles expandInit
      [(⟨.num (.fin 4), .undefined⟩, none), (⟨.num (.fin 4), .undefined⟩, none),
        (⟨.num (.fin 4), .undefined⟩, some (.obj []))]).fetchLog ≤ 1 :=
  ⟨((toggleExpand_lazy_fetch_once.1 expandInit ⟨.num (.fin 4), .undefined⟩).2.2.2.2
      4 rfl rfl rfl rfl).1,
    toggleExpand_lazy_fetch_once.2.2.2.2
      [(⟨.num (.fin 4), .undefined⟩, none), (⟨.num (.fin 4), .undefined⟩, none),
        (⟨.num (.fin 4), .undefined⟩, some (.obj []))] 4⟩

-- ===========================================================================
-- C8: the QA log is append-only, per-ask at most one entry, fresh on remount
-- ===========================================================================

theorem askEntries_length_le_one (q : List Char) (env : AskEnv) :
    (askEntries q env).length ≤ 1 := by
  unfold askEntries
  cases h : askStreaming q env <;> simp

/-- C8: the panel starts (and therefore restarts on every remount for a newly
selected document) with an empty QA log; every operation only ever appends to
the log; an ask appends exactly the entries of askEntries — a single entry
when the ask produced an answer on the streaming path or on the sync
fallback path (never both: the outcome is one constructor), and nothing when
the ask was empty, aborted or errored; Reset and the history expand/collapse
and excerpt toggles leave the log untouched. -/
theorem qaLog_append_only :
    panelInit.qaLog = [] ∧
    (∀ (st : PanelState) (op : PanelOp),
      ∃ tail, (panelStep st op).qaLog = st.qaLog ++ tail) ∧
    (∀ (st : PanelState) (env : AskEnv),
      (panelStep st (.ask env)).qaLog = st.qaLog ++ askEntries st.question env ∧
      (askEntries st.question env).length ≤ 1 ∧
      (∀ e, askStreaming st.question env = .streamed e →
        askEntries st.question env = [e]) ∧
      (∀ e, askStreaming st.question env = .syncAppended e →
        askEntries st.question env = [e]) ∧
      (askStreaming st.question env = .noQuestion ∨
        askStreaming st.question env = .streamAborted ∨
        askStreaming st.question env = .syncErrored ∨
        askStreaming st.question env = .syncAborted →
        askEntries st.question env = [])) ∧
    (∀ (st : PanelState) (ts : ℕ),
      (panelStep st .reset).qaLog = st.qaLog ∧
      (panelStep st (.toggleHistory ts)).qaLog = st.qaLog ∧
      (panelStep st (.toggleHistoryExcerpts ts)).qaLog = st.qaLog) := by
  have hask : ∀ (st : PanelState) (env : AskEnv),
      (panelStep st (.ask env)).qaLog = st.qaLog ++ askEntries st.question env := by
    intro st env
    unfold panelStep
    dsimp only
    by_cases hq : (sanitizeText st.question MAX_CHAT_LEN).isEmpty = true
    · rw [if_pos hq]
      have hnq : askStreaming st.question env = .noQuestion := by
        unfold askStreaming
        rw [if_pos hq]
      rw [show askEntries st.question env = [] by unfold askEntries; rw [hnq]]
      simp
    · rw [if_neg hq]
  refine ⟨rfl, ?_, ?_, ?_⟩
  · intro st op
    cases op with
    | ask env => exact ⟨askEntries st.question env, hask st env⟩
    | reset => exact ⟨[], by simp [panelStep]⟩
    | toggleHistory ts => exact ⟨[], by simp [panelStep]⟩
    | toggleHistoryExcerpts ts => exact ⟨[], by simp [panelStep]⟩
  · intro st env
    refine ⟨hask st env, askEntries_length_le_one _ _, ?_, ?_, ?_⟩
    · intro e he
      unfold askEntries
      rw [he]
    · intro e he
      unfold askEntries
      rw [he]
    · intro hcase
      unfold askEntries
      rcases hcase with h | h | h | h <;> rw [h]
  · intro st ts
    exact ⟨rfl, rfl, rfl⟩

/-- C8 witness: a concrete completed streaming ask appends exactly its one
entry to the log of a panel holding one prior entry. -/
theorem qaLog_append_only_witness :
    (panelStep
        ⟨"what".toList, none, none, [], [], [⟨"old".toList, "a".toList, [], 1⟩], [], []⟩
        (.ask ⟨.chunks ["\x7b\"delta\":\"hi\",\"done\":true\x7d\n".toList] .clean,
          .okBody none, 3⟩)).qaLog
      = [⟨"old".toList, "a".toList, [], 1⟩] ++
        askEntries "what".toList
          ⟨.chunks ["\x7b\"delta\":\"hi\",\"done\":true\x7d\n".toList] .clean,
            .okBody none, 3⟩ ∧
    askEntries "what".toList
        ⟨.chunks ["\x7b\"delta\":\"hi\",\"done\":true\x7d\n".toList] .clean,
          .okBody none, 3⟩
      = [⟨"what".toList, "hi".toList, [], 3⟩] :=
  ⟨(qaLog_append_only.2.2.1
      ⟨"what".toList, none, none, [], [], [⟨"old".toList, "a".toList, [], 1⟩], [], []⟩
      ⟨.chunks ["\x7b\"delta\":\"hi\",\"done\":true\x7d\n".toList] .clean,
        .okBody none, 3⟩).1,
    (qaLog_append_only.2.2.1
      ⟨"what".toList, none, none, [], [], [⟨"old".toList, "a".toList, [], 1⟩], [], []⟩
      ⟨.chunks ["\x7b\"delta\":\"hi\",\"done\":true\x7d\n".toList] .clean,
        .okBody none, 3⟩).2.2.1
      ⟨"what".toList, "hi".toList, [], 3⟩ (by rfl)⟩
